import Mathlib

/-!
Verification of the C type-context analyzer in `src/c_types.py` (m2c).

The file shallowly embeds the data model and the operations of the source
file: the pycparser AST fragment the analyzer consumes, the struct layout
engine (`parse_struct` / `do_parse_struct` / `parse_struct_member`), the
constant folder (`parse_constant_int`), the function-signature parser
(`parse_function`), the type normalizer (`resolve_typedefs`,
`pointer_decay`), the comment stripper (`strip_comments`) and the type-map
builder (`build_typemap`).

Conventions used throughout:
* Python's arbitrary-precision `int` is `Int`; Python `//` (floor
  division) is `Int.fdiv`, Python's bitwise `&` on ints is `pyAnd`
  (two's complement over unbounded integers, exactly Python's semantics).
* Python dicts are insertion-ordered association lists; updating an
  existing key keeps its position, a new key is appended.
* Exceptions are modelled with `Except Err`; `Err.decompFailure` stands
  for the `DecompFailure` the source raises, `Err.assertError` for failed
  `assert` statements, `Err.pyError` for Python-level crashes on inputs a
  real pycparser AST never produces, and `Err.fuel` marks recursion-depth
  exhaustion of the fuelled embedding (Python recurses without bound; all
  theorems either quantify over the fuel or use a sufficient constant).
* Python object identity, used to key anonymous structs, is modelled by a
  `uid : Nat` carried on every struct/union AST node.
-/

/-- Error kinds: `DecompFailure`, `AssertionError`, other Python-level
failures, and fuel exhaustion of the embedding. -/
inductive Err where
  | decompFailure (msg : String)
  | assertError (msg : String)
  | pyError (msg : String)
  | fuel
deriving Repr, DecidableEq

/-- Expressions, as consumed by `parse_constant_int`: `ca.Constant` with its
textual value, `ca.BinaryOp`, and a catch-all for every other expression
form (which the folder rejects). -/
inductive CExpr where
  | Constant (value : String)
  | BinaryOp (op : String) (left right : CExpr)
  | otherExpr
deriving Repr, DecidableEq

mutual

/-- The `Type` union of the source: `PtrDecl | ArrayDecl | TypeDecl |
FuncDecl`.  `TypeDecl` wraps an `IdentifierType`, `Enum`, `Struct` or
`Union` inner node. -/
inductive CType where
  | TypeDecl (declname : Option String) (inner : InnerType)
  | PtrDecl (inner : CType)
  | ArrayDecl (inner : CType) (dim : Option CExpr)
  | FuncDecl (args : Option (List ParamNode)) (ret : CType)

/-- Inner node of a `TypeDecl`: `ca.IdentifierType`, `ca.Enum` (members are
irrelevant to the analyzer, only the name is consulted), or a struct/union
node. -/
inductive InnerType where
  | IdentifierType (names : List String)
  | Enum (name : Option String)
  | StructU (su : StructUnion)

/-- A `ca.Struct` or `ca.Union` node: kind flag, optional tag, optional
member declarations (`none` = incomplete type), plus the object-identity
key `uid` (`id(struct)` in the source). -/
inductive StructUnion where
  | mk (isUnion : Bool) (name : Option String) (decls : Option (List DeclNode)) (uid : Nat)

/-- The declared type of a struct member: normally a `Type`, but pycparser
gives an *anonymous aggregate member* (`struct { ... };` with no
declarator) the bare `ca.Struct`/`ca.Union` node as its type. -/
inductive MemberType where
  | ctype (t : CType)
  | anonSU (su : StructUnion)

/-- An item of `struct.decls`: a `ca.Decl` (name, type, optional bitsize)
or any other node kind, which the layout loop skips. -/
inductive DeclNode where
  | Decl (name : Option String) (type' : MemberType) (bitsize : Option CExpr)
  | NotADecl

/-- An item of a `ca.ParamList`: `ca.EllipsisParam`, `ca.Decl`, `ca.ID`
(K&R header) or `ca.Typename`. -/
inductive ParamNode where
  | EllipsisParam
  | DeclParam (name : Option String) (type' : CType)
  | IDParam (name : String)
  | Typename (type' : CType)

end

/-- `StructField` of the source: a member (or flattened sub-member) entry of
a struct layout. -/
structure StructField where
  type' : CType
  name : String

/-- `Struct` of the source: the insertion-ordered offset table, byte size
and alignment.  `fields` models `Dict[int, List[StructField]]`. -/
structure Struct where
  fields : List (Int × List StructField)
  size : Int
  align : Int

/-- `Param` of the source. -/
structure Param where
  type' : CType
  name : Option String

/-- `Function` of the source: optional return type (`none` = void),
optional parameter list (`none` = declared with empty `()`), variadic
flag. -/
structure CFunction where
  ret_type : Option CType
  params : Option (List Param)
  is_variadic : Bool

/-- `TypeMap` of the source; every dict is an insertion-ordered assoc
list. -/
structure TypeMap where
  typedefs : List (String × CType)
  var_types : List (String × MemberType)
  functions : List (String × CFunction)
  named_structs : List (String × Struct)
  anon_structs : List (Nat × Struct)

/-- The empty `TypeMap()`. -/
def emptyTypeMap : TypeMap := ⟨[], [], [], [], []⟩

/-- First-match lookup in an assoc list (Python `dict.get` / `in`). -/
def dlookup {κ α : Type} [DecidableEq κ] : List (κ × α) → κ → Option α
  | [], _ => none
  | (k, v) :: rest, key => if k = key then some v else dlookup rest key

/-- Python dict assignment `d[key] = val`: overwrite in place if the key
exists, else append. -/
def dinsert {κ α : Type} [DecidableEq κ] : List (κ × α) → κ → α → List (κ × α)
  | [], key, val => [(key, val)]
  | (k, v) :: rest, key, val =>
    if k = key then (k, val) :: rest else (k, v) :: dinsert rest key val

/-- Generic fuelled binary bitwise combination of two naturals, least
significant bit first; `f` must send `(false, false)` to `false`.  Written
with structural recursion so that the kernel can evaluate it (the
library's `Nat.bitwise` is defined by well-founded recursion and is
opaque to kernel reduction). -/
def natBits (f : Bool → Bool → Bool) : Nat → Nat → Nat → Nat
  | 0, _, _ => 0
  | fuel + 1, m, n =>
    if m = 0 ∧ n = 0 then 0
    else (if f (m % 2 = 1) (n % 2 = 1) then 1 else 0) + 2 * natBits f fuel (m / 2) (n / 2)

/-- Bitwise and on naturals. -/
def natAnd (m n : Nat) : Nat := natBits (fun a b => a && b) (m + n + 1) m n

/-- Bitwise or on naturals. -/
def natOr (m n : Nat) : Nat := natBits (fun a b => a || b) (m + n + 1) m n

/-- Bitwise difference on naturals (`a && !b`). -/
def natLdiff (m n : Nat) : Nat := natBits (fun a b => a && !b) (m + n + 1) m n

/-- Python's `&` on arbitrary-precision integers: bitwise and in two's
complement.  Case split as in the library's two-complement and (to which it is proved equal in
`pyAnd_eq_land`), but kernel-computable. -/
def pyAnd (x y : Int) : Int :=
  match x, y with
  | .ofNat m, .ofNat n => .ofNat (natAnd m n)
  | .ofNat m, .negSucc n => .ofNat (natLdiff m n)
  | .negSucc m, .ofNat n => .ofNat (natLdiff n m)
  | .negSucc m, .negSucc n => .negSucc (natOr m n)

/-- `basic_type(names)` of the source. -/
def basic_type (names : List String) : CType :=
  .TypeDecl none (.IdentifierType names)

/-- `is_void(type)` of the source. -/
def is_void : CType → Bool
  | .TypeDecl _ (.IdentifierType names) => names = ["void"]
  | _ => false

/-- `primitive_size(type)` of the source, on an `IdentifierType` name
list.  (The `ca.Enum` case of the source function is inlined at its call
sites as the constant 4.) -/
def primitive_size (names : List String) : Int :=
  if names.contains "double" then 8
  else if names.contains "float" then 4
  else if names.contains "short" then 2
  else if names.contains "char" then 1
  else if names.count "long" = 2 then 8
  else 4

/-- One step of the `resolve_typedefs` while-loop, iterated with fuel.
The source loops while the type is a `TypeDecl` wrapping a single-name
`IdentifierType` whose name is a typedef key.  An acyclic chain visits
each typedef key at most once, so `typedefs.length` steps suffice; on a
cyclic chain the source diverges while this embedding stops (divergence
is outside the model). -/
def resolveTypedefsAux (tm : TypeMap) : Nat → CType → CType
  | 0, t => t
  | fuel + 1, t =>
    match t with
    | .TypeDecl _ (.IdentifierType [n]) =>
      match dlookup tm.typedefs n with
      | some t' => resolveTypedefsAux tm fuel t'
      | none => t
    | _ => t

/-- `resolve_typedefs(type, typemap)` of the source. -/
def resolve_typedefs (t : CType) (tm : TypeMap) : CType :=
  resolveTypedefsAux tm tm.typedefs.length t

/-- `pointer_decay(type, typemap)` of the source.  The source's trailing
`assert not isinstance(type, (ArrayDecl, FuncDecl))` is provably
unreachable (resolution leaves non-`TypeDecl` shapes unchanged, so an
array or function input is caught by the first two branches) and is
therefore not modelled as a failure. -/
def pointer_decay (t : CType) (tm : TypeMap) : CType :=
  match resolve_typedefs t tm with
  | .ArrayDecl elem _ => .PtrDecl elem
  | .FuncDecl _ _ => .PtrDecl t
  | .TypeDecl _ (.Enum _) => basic_type ["int"]
  | _ => t

/-- `SimpleType` shape test: `PtrDecl | TypeDecl`. -/
def isSimpleType : CType → Bool
  | .PtrDecl _ => true
  | .TypeDecl _ _ => true
  | _ => false

/-- Python `str.rstrip(chars)`: drop trailing characters belonging to
`chars`. -/
def pyRstrip (s : List Char) (chars : List Char) : List Char :=
  (s.reverse.dropWhile (fun c => chars.contains c)).reverse

/-- Value of a digit character (works for `0`-`9`, `a`-`f`, `A`-`F`;
the numerals are the code points of `0`, `9`, `a`, `f`, `A`, `F`). -/
def digitVal (c : Char) : Nat :=
  if 48 ≤ c.toNat ∧ c.toNat ≤ 57 then c.toNat - 48
  else if 97 ≤ c.toNat ∧ c.toNat ≤ 102 then c.toNat - 97 + 10
  else if 65 ≤ c.toNat ∧ c.toNat ≤ 70 then c.toNat - 65 + 10
  else 0

/-- `c` is a digit of the given base (bases 2/8/10/16 as used by the
CPython model). -/
def isDigitBase (base : Nat) (c : Char) : Bool :=
  ((48 ≤ c.toNat ∧ c.toNat ≤ 57) ∨ (97 ≤ c.toNat ∧ c.toNat ≤ 102) ∨
    (65 ≤ c.toNat ∧ c.toNat ≤ 70)) ∧ digitVal c < base

/-- Read an all-digit string in the given base. -/
def digitsToNat (base : Nat) (ds : List Char) : Nat :=
  ds.foldl (fun acc c => acc * base + digitVal c) 0

/-- Digit run after a base prefix (or an unprefixed decimal run): must be
nonempty and consist of digits of the base. -/
def parseDigits (base : Nat) (ds : List Char) : Option Nat :=
  if ds ≠ [] ∧ ds.all (isDigitBase base) then some (digitsToNat base ds) else none

/-- Modelled behavior of CPython 3's `int(s, 0)` on the magnitude part
(after the optional sign): a `0x`/`0X`, `0o`/`0O` or `0b`/`0B` prefix
selects base 16/8/2; otherwise the string must be a decimal digit run with
no leading zero (except a run that is entirely zeros); anything else is a
`ValueError`.  CPython's underscore digit grouping is not modelled (a C
lexer never produces it). -/
def pyIntBase0Mag : List Char → Option Nat
  | c0 :: c1 :: rest =>
    if c0 = '0' ∧ (c1 = 'x' ∨ c1 = 'X') then parseDigits 16 rest
    else if c0 = '0' ∧ (c1 = 'o' ∨ c1 = 'O') then parseDigits 8 rest
    else if c0 = '0' ∧ (c1 = 'b' ∨ c1 = 'B') then parseDigits 2 rest
    else if c0 = '0' then (if (c0 :: c1 :: rest).all (fun d => d = '0') then some 0 else none)
    else parseDigits 10 (c0 :: c1 :: rest)
  | ds => parseDigits 10 ds

/-- Sign handling of CPython 3's `int(s, 0)` after whitespace
stripping: an optional sign, then the magnitude. -/
def pyIntBase0Signed : List Char → Option Int
  | [] => none
  | c :: rest =>
    if c = '-' then (pyIntBase0Mag rest).map (fun (n : Nat) => -(n : Int))
    else if c = '+' then (pyIntBase0Mag rest).map (fun (n : Nat) => (n : Int))
    else (pyIntBase0Mag (c :: rest)).map (fun (n : Nat) => (n : Int))

/-- CPython 3's `int(s, 0)`: strip surrounding whitespace, read an
optional sign, then the magnitude. -/
def pyIntBase0 (s : List Char) : Option Int :=
  pyIntBase0Signed ((s.dropWhile (·.isWhitespace)).reverse.dropWhile (·.isWhitespace) |>.reverse)

/-- `parse_constant_int(expr)` of the source.  A `Constant` is parsed with
`int(value.rstrip("lLuU"), 0)`, a `ValueError` becoming a
`DecompFailure`; a `BinaryOp` folds both operands (in that order, so a
failing operand raises before an unsupported operator is noticed) and then
applies `+ - * << >>`; every other expression raises.  Python's `<<`/`>>`
with a negative right operand raise an uncaught `ValueError`, modelled as
`Err.pyError`. -/
def parse_constant_int : CExpr → Except Err Int
  | .Constant value =>
    match pyIntBase0 (pyRstrip value.toList ['l', 'L', 'u', 'U']) with
    | some n => .ok n
    | none => .error (.decompFailure "Failed to parse as an int literal")
  | .BinaryOp op left right => do
    let lhs ← parse_constant_int left
    let rhs ← parse_constant_int right
    if op = "+" then pure (lhs + rhs)
    else if op = "-" then pure (lhs - rhs)
    else if op = "*" then pure (lhs * rhs)
    else if op = "<<" then
      if rhs < 0 then throw (.pyError "negative shift count")
      else pure (lhs * 2 ^ rhs.toNat)
    else if op = ">>" then
      if rhs < 0 then throw (.pyError "negative shift count")
      else pure (Int.fdiv lhs (2 ^ rhs.toNat))
    else throw (.decompFailure "Failed to evaluate expression at compile time")
  | .otherExpr => .error (.decompFailure "Failed to evaluate expression at compile time")

/-- The parameter loop of `parse_function`: accumulates `params`,
`is_variadic` and `has_void` over the declared parameters. -/
def parseParams : List ParamNode → List Param → Bool → Bool →
    Except Err (List Param × Bool × Bool)
  | [], ps, variadic, hasVoid => .ok (ps, variadic, hasVoid)
  | .EllipsisParam :: rest, ps, _, hasVoid => parseParams rest ps true hasVoid
  | .DeclParam n t :: rest, ps, variadic, hasVoid =>
    parseParams rest (ps ++ [⟨t, n⟩]) variadic hasVoid
  | .IDParam _ :: _, _, _, _ =>
    .error (.decompFailure "K&R-style function header is not supported")
  | .Typename t :: rest, ps, variadic, hasVoid =>
    if is_void t then parseParams rest ps variadic true
    else parseParams rest (ps ++ [⟨t, none⟩]) variadic hasVoid

/-- `parse_function(fn)` of the source, on a `FuncDecl` node.  `fn.args`
is `None` exactly when the declarator had an empty `()`; the post-pass
turns an empty accumulated list into `params = None` unless an explicit
`(void)` or `...` was seen. -/
def parse_function : CType → Except Err CFunction
  | .FuncDecl args ret => do
    let (params, is_variadic, has_void) ←
      match args with
      | some ps => parseParams ps [] false false
      | none => pure ([], false, false)
    let maybe_params : Option (List Param) :=
      if params.isEmpty ∧ ¬has_void ∧ ¬is_variadic then none else some params
    let ret_type : Option CType := if is_void ret then none else some ret
    pure ⟨ret_type, maybe_params, is_variadic⟩
  | _ => .error (.pyError "parse_function expects a FuncDecl")

/-- `get_struct(struct, typemap)` of the source: named structs are looked
up by tag, anonymous ones by node identity. -/
def get_struct (su : StructUnion) (tm : TypeMap) : Option Struct :=
  match su with
  | .mk _ (some n) _ _ => dlookup tm.named_structs n
  | .mk _ none _ uid => dlookup tm.anon_structs uid

/-- The registration step at the end of `parse_struct`. -/
def registerStruct (su : StructUnion) (s : Struct) (tm : TypeMap) : TypeMap :=
  match su with
  | .mk _ (some n) _ _ => { tm with named_structs := dinsert tm.named_structs n s }
  | .mk _ none _ uid => { tm with anon_structs := dinsert tm.anon_structs uid s }

/-- `fields[offset].append(f)` on the insertion-ordered
`defaultdict(list)`: extend the list of an existing offset in place, or
append a fresh singleton entry. -/
def addField (fl : List (Int × List StructField)) (off : Int) (f : StructField) :
    List (Int × List StructField) :=
  match fl with
  | [] => [(off, [f])]
  | (o, fs) :: rest =>
    if o = off then (o, fs ++ [f]) :: rest else (o, fs) :: addField rest off f

/-- Append each field of a list at one offset, in order. -/
def addFieldList (fl : List (Int × List StructField)) (off : Int) :
    List StructField → List (Int × List StructField)
  | [] => fl
  | f :: fs => addFieldList (addField fl off f) off fs

/-- The renaming applied to flattened sub-members: `decl.name + "." +
field.name` for a named aggregate member, no renaming for an anonymous
one. -/
def renameField : Option String → StructField → StructField
  | some n, f => ⟨f.type', n ++ "." ++ f.name⟩
  | none, f => f

/-- The flattening double loop of `do_parse_struct`: for each inner offset
entry, append every (possibly renamed) inner field at `base + off`. -/
def addFlattened (fl : List (Int × List StructField)) (base : Int)
    (pre : Option String) :
    List (Int × List StructField) → List (Int × List StructField)
  | [] => fl
  | (off, fs) :: rest =>
    addFlattened (addFieldList fl (base + off) (fs.map (renameField pre))) base pre rest

/-- The running state of the layout loop in `do_parse_struct`. -/
structure LayoutState where
  fields : List (Int × List StructField)
  union_size : Int
  align : Int
  offset : Int
  bit_offset : Int

/-- The state at the top of `do_parse_struct`. -/
def initLayout : LayoutState := ⟨[], 0, 1, 0, 0⟩

/-- Request selector for the mutually recursive part of the layout
engine: `parse_struct_member`, `parse_struct`, `do_parse_struct`, the
declaration loop of `do_parse_struct`, and a single iteration of that
loop. -/
inductive PArg where
  | member (t : CType)
  | pstruct (su : StructUnion)
  | pdo (su : StructUnion)
  | pdecls (isUnion : Bool) (decls : List DeclNode) (st : LayoutState)
  | pstep (isUnion : Bool) (d : DeclNode) (st : LayoutState)

/-- Result of an engine request. -/
inductive PRes where
  | memberRes (size align : Int) (substr : Option Struct)
  | structRes (s : Struct)
  | stateRes (st : LayoutState)

/-- The struct layout engine of the source (`parse_struct_member`,
`parse_struct`, `do_parse_struct` and the body of its loop), written as
one function that is structurally recursive on a fuel so that the kernel
can evaluate it.  Every recursive call of the source becomes an `engine
fuel` call; the `TypeMap` is threaded because `parse_struct` memoizes
(and Python mutates the map even when a later member aborts the layout).
The `"wrong result kind"` branches are unreachable (each request shape
only ever produces its own result shape) and exist only to make the
projection total. -/
def engine : Nat → PArg → TypeMap → TypeMap × Except Err PRes
  | 0, _, tm => (tm, .error .fuel)
  | fuel + 1, arg, tm =>
    match arg with
    | .member t =>
      -- parse_struct_member, source lines 247-266
      match resolve_typedefs t tm with
      | .PtrDecl _ => (tm, .ok (.memberRes 4 4 none))
      | .ArrayDecl elem dim =>
        match dim with
        | none => (tm, .error (.decompFailure "Array field must have a size"))
        | some d =>
          match parse_constant_int d with
          | .error e => (tm, .error e)
          | .ok dimv =>
            match engine fuel (.member elem) tm with
            | (tm', .ok (.memberRes sz al _)) => (tm', .ok (.memberRes (sz * dimv) al none))
            | (tm', .ok _) => (tm', .error (.pyError "wrong result kind"))
            | (tm', .error e) => (tm', .error e)
      | .FuncDecl _ _ => (tm, .error (.assertError "Struct can not contain a function"))
      | .TypeDecl _ inner =>
        match inner with
        | .StructU su =>
          match engine fuel (.pstruct su) tm with
          | (tm', .ok (.structRes s)) => (tm', .ok (.memberRes s.size s.align (some s)))
          | (tm', .ok _) => (tm', .error (.pyError "wrong result kind"))
          | (tm', .error e) => (tm', .error e)
        | .Enum _ => (tm, .ok (.memberRes 4 4 none))
        | .IdentifierType names =>
          (tm, .ok (.memberRes (primitive_size names) (primitive_size names) none))
    | .pstruct su =>
      -- parse_struct, source lines 233-244
      match get_struct su tm with
      | some s => (tm, .ok (.structRes s))
      | none =>
        match su with
        | .mk _ _ none _ =>
          (tm, .error (.decompFailure "Tried to use struct before it is defined"))
        | .mk _ _ (some _) _ =>
          match engine fuel (.pdo su) tm with
          | (tm', .ok (.structRes s)) => (registerStruct su s tm', .ok (.structRes s))
          | (tm', .ok _) => (tm', .error (.pyError "wrong result kind"))
          | (tm', .error e) => (tm', .error e)
    | .pdo su =>
      -- do_parse_struct prologue and finalization, source lines 269-278 and 354-359
      match su with
      | .mk _ _ none _ => (tm, .error (.assertError "enforced by caller"))
      | .mk _ _ (some []) _ => (tm, .error (.assertError "Empty structs are not valid C"))
      | .mk isUnion _ (some decls) _ =>
        match engine fuel (.pdecls isUnion decls initLayout) tm with
        | (tm', .ok (.stateRes st)) =>
          let st2 := if ¬isUnion ∧ st.bit_offset ≠ 0
            then { st with bit_offset := 0, offset := st.offset + 1 } else st
          let size := if isUnion then st2.union_size
            else pyAnd (st2.offset + st2.align - 1) (-st2.align)
          (tm', .ok (.structRes ⟨st2.fields, size, st2.align⟩))
        | (tm', .ok _) => (tm', .error (.pyError "wrong result kind"))
        | (tm', .error e) => (tm', .error e)
    | .pdecls isUnion decls st =>
      -- the for-loop over struct.decls
      match decls with
      | [] => (tm, .ok (.stateRes st))
      | d :: rest =>
        match engine fuel (.pstep isUnion d st) tm with
        | (tm', .ok (.stateRes st')) => engine fuel (.pdecls isUnion rest st') tm'
        | (tm', .ok _) => (tm', .error (.pyError "wrong result kind"))
        | (tm', .error e) => (tm', .error e)
    | .pstep isUnion d st =>
      -- one iteration of the loop, source lines 279-352
      match d with
      | .NotADecl => (tm, .ok (.stateRes st))
      | .Decl dname dtype bitsize =>
        match bitsize with
        | some bs =>
          -- bitfield, source lines 285-312
          match parse_constant_int bs with
          | .error e => (tm, .error e)
          | .ok width =>
            match dtype with
            | .anonSU _ => (tm, .error (.pyError "bare aggregate node passed to parse_struct_member"))
            | .ctype ty =>
              match engine fuel (.member ty) tm with
              | (tm', .ok (.memberRes ssize salign substr)) =>
                let align' := max st.align salign
                if width = 0 then (tm', .ok (.stateRes { st with align := align' }))
                else if ssize ≠ salign ∨ substr.isSome then
                  (tm', .error (.decompFailure "Bitfield is not of primitive type"))
                else if ssize * 8 < width then
                  (tm', .error (.decompFailure "Width of bitfield exceeds its type"))
                else if isUnion then
                  (tm', .ok (.stateRes
                    { st with align := align', union_size := max st.union_size ssize }))
                else
                  let st1 :=
                    if Int.fdiv st.offset ssize ≠
                        Int.fdiv (st.offset + Int.fdiv (st.bit_offset + width - 1) 8) ssize
                    then { st with align := align', bit_offset := 0,
                                   offset := pyAnd (st.offset + ssize) (-ssize) }
                    else { st with align := align' }
                  let b := st1.bit_offset + width
                  (tm', .ok (.stateRes
                    { st1 with offset := st1.offset + Int.fdiv b 8, bit_offset := pyAnd b 7 }))
              | (tm', .ok _) => (tm', .error (.pyError "wrong result kind"))
              | (tm', .error e) => (tm', .error e)
        | none =>
          -- flush a pending bitfield run, source lines 314-316
          let st0 := if ¬isUnion ∧ st.bit_offset ≠ 0
            then { st with bit_offset := 0, offset := st.offset + 1 } else st
          match dname with
          | some n =>
            -- named member, source lines 318-334
            match dtype with
            | .anonSU _ => (tm, .error (.pyError "bare aggregate node passed to parse_struct_member"))
            | .ctype ty =>
              match engine fuel (.member ty) tm with
              | (tm', .ok (.memberRes ssize salign substr)) =>
                let align' := max st0.align salign
                let offm := pyAnd (st0.offset + salign - 1) (-salign)
                let fl1 := addField st0.fields offm ⟨ty, n⟩
                let fl2 := match substr with
                  | some sub => addFlattened fl1 offm (some n) sub.fields
                  | none => fl1
                if isUnion then
                  (tm', .ok (.stateRes
                    { st0 with fields := fl2, align := align',
                               union_size := max st0.union_size ssize }))
                else
                  (tm', .ok (.stateRes
                    { st0 with fields := fl2, align := align', offset := offm + ssize }))
              | (tm', .ok _) => (tm', .error (.pyError "wrong result kind"))
              | (tm', .error e) => (tm', .error e)
          | none =>
            -- unnamed member, source lines 335-352
            match dtype with
            | .ctype _ => (tm, .ok (.stateRes st0))
            | .anonSU su =>
              match su with
              | .mk _ _ none _ => (tm, .ok (.stateRes st0))
              | .mk _ sname (some _) _ =>
                match engine fuel (.pstruct su) tm with
                | (tm', .ok (.structRes substr)) =>
                  match sname with
                  | some _ => (tm', .ok (.stateRes st0))
                  | none =>
                    let align' := max st0.align substr.align
                    let offa := pyAnd (st0.offset + substr.align - 1) (-substr.align)
                    let fl' := addFlattened st0.fields offa none substr.fields
                    if isUnion then
                      (tm', .ok (.stateRes
                        { st0 with fields := fl', align := align',
                                   union_size := max st0.union_size substr.size }))
                    else
                      (tm', .ok (.stateRes
                        { st0 with fields := fl', align := align',
                                   offset := offa + substr.size }))
                | (tm', .ok _) => (tm', .error (.pyError "wrong result kind"))
                | (tm', .error e) => (tm', .error e)

/-- `parse_struct_member(type, field_name, typemap)` of the source
(field names, used only inside error messages, are not tracked). -/
def parse_struct_member (fuel : Nat) (t : CType) (tm : TypeMap) :
    TypeMap × Except Err (Int × Int × Option Struct) :=
  match engine fuel (.member t) tm with
  | (tm', .ok (.memberRes sz al sub)) => (tm', .ok (sz, al, sub))
  | (tm', .ok _) => (tm', .error (.pyError "wrong result kind"))
  | (tm', .error e) => (tm', .error e)

/-- `parse_struct(struct, typemap)` of the source. -/
def parse_struct (fuel : Nat) (su : StructUnion) (tm : TypeMap) :
    TypeMap × Except Err Struct :=
  match engine fuel (.pstruct su) tm with
  | (tm', .ok (.structRes s)) => (tm', .ok s)
  | (tm', .ok _) => (tm', .error (.pyError "wrong result kind"))
  | (tm', .error e) => (tm', .error e)

/-- `do_parse_struct(struct, typemap)` of the source. -/
def do_parse_struct (fuel : Nat) (su : StructUnion) (tm : TypeMap) :
    TypeMap × Except Err Struct :=
  match engine fuel (.pdo su) tm with
  | (tm', .ok (.structRes s)) => (tm', .ok s)
  | (tm', .ok _) => (tm', .error (.pyError "wrong result kind"))
  | (tm', .error e) => (tm', .error e)

/-- The declaration loop of `do_parse_struct`, starting from a given
state. -/
def layoutDecls (fuel : Nat) (isUnion : Bool) (decls : List DeclNode)
    (st : LayoutState) (tm : TypeMap) : TypeMap × Except Err LayoutState :=
  match engine fuel (.pdecls isUnion decls st) tm with
  | (tm', .ok (.stateRes st')) => (tm', .ok st')
  | (tm', .ok _) => (tm', .error (.pyError "wrong result kind"))
  | (tm', .error e) => (tm', .error e)

/-- One iteration of the declaration loop of `do_parse_struct`. -/
def layoutStep (fuel : Nat) (isUnion : Bool) (d : DeclNode)
    (st : LayoutState) (tm : TypeMap) : TypeMap × Except Err LayoutState :=
  match engine fuel (.pstep isUnion d st) tm with
  | (tm', .ok (.stateRes st')) => (tm', .ok st')
  | (tm', .ok _) => (tm', .error (.pyError "wrong result kind"))
  | (tm', .error e) => (tm', .error e)

/-- Newlines in a character list. -/
def countNl (l : List Char) : Nat := l.count '\n'

/-- The body of the regex alternative `'(?:\\.|[^\\'])*'` (and its
double-quote twin) after the opening quote: an escape consumes the
backslash and the following character (DOTALL: any character, newline
included), any other character except the quote and backslash consumes
itself, and the match ends at the closing quote.  Returns the consumed
characters (closing quote included) and the remainder, or `none` when
the literal is unterminated. -/
def matchLitAux (q : Char) : List Char → Option (List Char × List Char)
  | [] => none
  | c :: rest =>
    if c = q then some ([q], rest)
    else if c = '\\' then
      match rest with
      | [] => none
      | e :: rest' =>
        match matchLitAux q rest' with
        | some (l, r) => some ('\\' :: e :: l, r)
        | none => none
    else
      match matchLitAux q rest with
      | some (l, r) => some (c :: l, r)
      | none => none

/-- A char/string literal match at the head of the input, as the third
and fourth alternatives of the `strip_comments` regex recognize it. -/
def matchLit : List Char → Option (List Char × List Char)
  | c :: rest =>
    if c = '\'' ∨ c = '"' then
      match matchLitAux c rest with
      | some (l, r) => some (c :: l, r)
      | none => none
    else none
  | [] => none

/-- The lazy `.*?\*/` tail of the block-comment alternative: everything up
to and including the first `*/`. -/
def findBlockEnd : List Char → Option (List Char × List Char)
  | '*' :: '/' :: rest => some (['*', '/'], rest)
  | c :: rest =>
    match findBlockEnd rest with
    | some (l, r) => some (c :: l, r)
    | none => none
  | [] => none

/-- The scan performed by `re.sub` in `strip_comments` with the pattern
`//.*?$|/\*.*?\*/|'(?:\\.|[^\\'])*'|"(?:\\.|[^\\"])*"` (DOTALL and
MULTILINE) and the replacer that turns a comment match into a space
followed by the comment's newlines and passes literal matches through:
at each position the alternatives are tried in order; on no match the
engine advances one character.  A `//` comment runs to the lazy `$`,
i.e. up to but not including the line's newline.  The fuel only bounds
the recursion (each step consumes at least one character, so
`text.length` steps suffice); at fuel 0 the rest is emitted verbatim. -/
def stripAux : Nat → List Char → List Char
  | 0, cs => cs
  | _ + 1, [] => []
  | fuel + 1, '/' :: '/' :: rest =>
    ' ' :: stripAux fuel (rest.dropWhile (· ≠ '\n'))
  | fuel + 1, '/' :: '*' :: rest =>
    match findBlockEnd rest with
    | some (consumed, rest') =>
      ' ' :: (List.replicate (countNl consumed) '\n' ++ stripAux fuel rest')
    | none => '/' :: stripAux fuel ('*' :: rest)
  | fuel + 1, c :: rest =>
    if c = '\'' ∨ c = '"' then
      match matchLit (c :: rest) with
      | some (lit, rest') => lit ++ stripAux fuel rest'
      | none => c :: stripAux fuel rest
    else c :: stripAux fuel rest

/-- `strip_comments(text)` of the source. -/
def strip_comments (text : String) : String :=
  String.mk (stripAux text.toList.length text.toList)

/-- A top-level item of the translation unit (`ast.ext`): `ca.Typedef`,
`ca.FuncDef` (with its `decl`'s name and type), a top-level `ca.Decl`
(whose type is a `MemberType` because a tag-only `struct S { ... };`
declaration carries the bare struct node as its type), or any other node
kind. -/
inductive ExtDecl where
  | Typedef (name : String) (type' : CType)
  | FuncDef (declName : Option String) (declType : CType)
  | DeclExt (name : Option String) (type' : MemberType)
  | OtherExt

/-- The first loop of `build_typemap` (source lines 426-435): typedefs,
functions from `FuncDef`s, and functions from function-typed top-level
declarations. -/
def buildPhase1 : List ExtDecl → TypeMap → Except Err TypeMap
  | [], tm => .ok tm
  | .Typedef n t :: rest, tm =>
    buildPhase1 rest { tm with typedefs := dinsert tm.typedefs n t }
  | .FuncDef none _ :: _, _ => .error (.assertError "cannot define anonymous function")
  | .FuncDef (some n) dt :: rest, tm =>
    match dt with
    | .FuncDecl args ret =>
      match parse_function (.FuncDecl args ret) with
      | .ok fn => buildPhase1 rest { tm with functions := dinsert tm.functions n fn }
      | .error e => .error e
    | _ => .error (.assertError "expected a FuncDecl")
  | .DeclExt dn (.ctype (.FuncDecl args ret)) :: rest, tm =>
    match dn with
    | none => .error (.assertError "cannot define anonymous function")
    | some n =>
      match parse_function (.FuncDecl args ret) with
      | .ok fn => buildPhase1 rest { tm with functions := dinsert tm.functions n fn }
      | .error e => .error e
  | _ :: rest, tm => buildPhase1 rest tm

/-- Request selector for the `Visitor` traversal of `build_typemap`
(source lines 439-462): a declared member type, a type, an inner
`TypeDecl` node, or a parameter list. -/
inductive VArg where
  | vmember (mt : MemberType)
  | vtype (t : CType)
  | vinner (i : InnerType)
  | vparams (ps : List ParamNode)

/-- The `Visitor` of `build_typemap`, fuelled for structural recursion.
`pycparser`'s `generic_visit` walks all children of nodes without an
override; the overrides are: struct/union nodes with declarations are
laid out via `parse_struct` (and not descended into), a named enum
registers an `int` typedef, and a `ca.Decl` (which also occurs as a
function parameter) registers `var_types[name] = type` and descends into
its type unless that type is a `FuncDecl`.  Expression children (array
dimensions) contain no registrable nodes and are skipped.  `efuel` is the
fuel handed to the layout engine. -/
def visitor (efuel : Nat) : Nat → VArg → TypeMap → TypeMap × Except Err Unit
  | 0, _, tm => (tm, .error .fuel)
  | fuel + 1, arg, tm =>
    match arg with
    | .vmember (.ctype t) => visitor efuel fuel (.vtype t) tm
    | .vmember (.anonSU su) => visitor efuel fuel (.vinner (.StructU su)) tm
    | .vtype (.TypeDecl _ inner) => visitor efuel fuel (.vinner inner) tm
    | .vtype (.PtrDecl inner) => visitor efuel fuel (.vtype inner) tm
    | .vtype (.ArrayDecl inner _) => visitor efuel fuel (.vtype inner) tm
    | .vtype (.FuncDecl args ret) =>
      match visitor efuel fuel (.vparams (args.getD [])) tm with
      | (tm', .ok _) => visitor efuel fuel (.vtype ret) tm'
      | (tm', .error e) => (tm', .error e)
    | .vinner (.IdentifierType _) => (tm, .ok ())
    | .vinner (.Enum name) =>
      match name with
      | some n => ({ tm with typedefs := dinsert tm.typedefs n (basic_type ["int"]) }, .ok ())
      | none => (tm, .ok ())
    | .vinner (.StructU su) =>
      match su with
      | .mk _ _ none _ => (tm, .ok ())
      | .mk _ _ (some _) _ =>
        match engine efuel (.pstruct su) tm with
        | (tm', .ok _) => (tm', .ok ())
        | (tm', .error e) => (tm', .error e)
    | .vparams [] => (tm, .ok ())
    | .vparams (p :: rest) =>
      match p with
      | .EllipsisParam => visitor efuel fuel (.vparams rest) tm
      | .IDParam _ => visitor efuel fuel (.vparams rest) tm
      | .Typename t =>
        match visitor efuel fuel (.vtype t) tm with
        | (tm', .ok _) => visitor efuel fuel (.vparams rest) tm'
        | (tm', .error e) => (tm', .error e)
      | .DeclParam dn t =>
        let tm0 := match dn with
          | some n => { tm with var_types := dinsert tm.var_types n (.ctype t) }
          | none => tm
        match t with
        | .FuncDecl _ _ => visitor efuel fuel (.vparams rest) tm0
        | _ =>
          match visitor efuel fuel (.vtype t) tm0 with
          | (tm', .ok _) => visitor efuel fuel (.vparams rest) tm'
          | (tm', .error e) => (tm', .error e)

/-- The second pass of `build_typemap`: `Visitor().visit(ast)` on the
top-level items.  A `Typedef` is descended into generically; a `FuncDef`
registers `var_types[name] = decl.type` and is not descended into
(`visit_FuncDef` does not recurse, so function bodies are never
visited); a top-level `Decl` registers `var_types[name]` and descends
into its type unless that type is a `FuncDecl`. -/
def buildPhase2Item (efuel vfuel : Nat) (item : ExtDecl) (tm : TypeMap) :
    TypeMap × Except Err Unit :=
  match item with
  | .Typedef _ t => visitor efuel vfuel (.vtype t) tm
  | .FuncDef dn dt =>
    match dn with
    | some n => ({ tm with var_types := dinsert tm.var_types n (.ctype dt) }, .ok ())
    | none => (tm, .ok ())
  | .DeclExt dn mt =>
    let tm0 := match dn with
      | some n => { tm with var_types := dinsert tm.var_types n mt }
      | none => tm
    match mt with
    | .ctype (.FuncDecl _ _) => (tm0, .ok ())
    | _ => visitor efuel vfuel (.vmember mt) tm0
  | .OtherExt => (tm, .ok ())

/-- The item loop of the second pass. -/
def buildPhase2 (efuel vfuel : Nat) : List ExtDecl → TypeMap → TypeMap × Except Err Unit
  | [], tm => (tm, .ok ())
  | item :: rest, tm =>
    match buildPhase2Item efuel vfuel item tm with
    | (tm1, .ok _) => buildPhase2 efuel vfuel rest tm1
    | (tm1, .error e) => (tm1, .error e)

/-- `build_typemap(source)` of the source, modelled from the parsed
translation unit onward (the upstream C parser is an external
collaborator; `add_builtin_typedefs` merely prepends ten `Typedef`
items to the unit). -/
def build_typemap (efuel vfuel : Nat) (ast : List ExtDecl) : Except Err TypeMap :=
  match buildPhase1 ast emptyTypeMap with
  | .error e => .error e
  | .ok tm1 =>
    match buildPhase2 efuel vfuel ast tm1 with
    | (tm2, .ok _) => .ok tm2
    | (_, .error e) => .error e

/-- Specification-side collector for union layout: the sizes of the
members that contribute to `union_size` in `do_parse_struct`'s loop when
laying out a union, in declaration order.  It performs exactly the
parsing calls of the loop (with the same fuel discipline) so that the
typemap evolves identically, but records each `max(union_size, ...)`
argument instead of folding it.  Used to state that a union's size is
the maximum member size. -/
def unionStepSize : Nat → DeclNode → TypeMap → TypeMap × Except Err (List Int)
  | 0, _, tm => (tm, .error .fuel)
  | fuel + 1, d, tm =>
    match d with
    | .NotADecl => (tm, .ok [])
    | .Decl dname dtype bitsize =>
      match bitsize with
      | some bs =>
        match parse_constant_int bs with
        | .error e => (tm, .error e)
        | .ok width =>
          match dtype with
          | .anonSU _ => (tm, .error (.pyError "bare aggregate node passed to parse_struct_member"))
          | .ctype ty =>
            match engine fuel (.member ty) tm with
            | (tm', .ok (.memberRes ssize salign substr)) =>
              if width = 0 then (tm', .ok [])
              else if ssize ≠ salign ∨ substr.isSome then
                (tm', .error (.decompFailure "Bitfield is not of primitive type"))
              else if ssize * 8 < width then
                (tm', .error (.decompFailure "Width of bitfield exceeds its type"))
              else (tm', .ok [ssize])
            | (tm', .ok _) => (tm', .error (.pyError "wrong result kind"))
            | (tm', .error e) => (tm', .error e)
      | none =>
        match dname with
        | some _ =>
          match dtype with
          | .anonSU _ => (tm, .error (.pyError "bare aggregate node passed to parse_struct_member"))
          | .ctype ty =>
            match engine fuel (.member ty) tm with
            | (tm', .ok (.memberRes ssize _ _)) => (tm', .ok [ssize])
            | (tm', .ok _) => (tm', .error (.pyError "wrong result kind"))
            | (tm', .error e) => (tm', .error e)
        | none =>
          match dtype with
          | .ctype _ => (tm, .ok [])
          | .anonSU su =>
            match su with
            | .mk _ _ none _ => (tm, .ok [])
            | .mk _ sname (some _) _ =>
              match engine fuel (.pstruct su) tm with
              | (tm', .ok (.structRes substr)) =>
                match sname with
                | some _ => (tm', .ok [])
                | none => (tm', .ok [substr.size])
              | (tm', .ok _) => (tm', .error (.pyError "wrong result kind"))
              | (tm', .error e) => (tm', .error e)

/-- Specification-side list of union member size contributions over a
whole declaration list (see `unionStepSize`). -/
def unionMemberSizes : Nat → List DeclNode → TypeMap → TypeMap × Except Err (List Int)
  | 0, _, tm => (tm, .error .fuel)
  | _ + 1, [], tm => (tm, .ok [])
  | fuel + 1, d :: rest, tm =>
    match unionStepSize fuel d tm with
    | (tm', .ok sizes) =>
      match unionMemberSizes fuel rest tm' with
      | (tm'', .ok sizes') => (tm'', .ok (sizes ++ sizes'))
      | (tm'', .error e) => (tm'', .error e)
    | (tm', .error e) => (tm', .error e)

/-- Kind flag of a struct/union node. -/
def StructUnion.isUnion : StructUnion → Bool
  | .mk b _ _ _ => b

/-- Tag of a struct/union node. -/
def StructUnion.name : StructUnion → Option String
  | .mk _ n _ _ => n

/-- Member declarations of a struct/union node (`none` = incomplete). -/
def StructUnion.decls : StructUnion → Option (List DeclNode)
  | .mk _ _ d _ => d

/-- The list of fields of a layout table at one offset (the dict's
entry, empty when the offset is absent). -/
def fieldsAt (fl : List (Int × List StructField)) (off : Int) : List StructField :=
  (dlookup fl off).getD []

/-- One field table extends another: at every offset, the field list of
the second is the first's list with some suffix appended. -/
def FieldsExt (fl fl2 : List (Int × List StructField)) : Prop :=
  ∀ o, ∃ t, fieldsAt fl2 o = fieldsAt fl o ++ t

/-- The bitfield-run flush at the head of a non-bitfield member (source
lines 314-316): in a struct with a pending bit offset, zero it and move
to the next byte. -/
def flushBits (isUnion : Bool) (st : LayoutState) : LayoutState :=
  if ¬isUnion ∧ st.bit_offset ≠ 0
    then { st with bit_offset := 0, offset := st.offset + 1 } else st

/-- An integer that is a power of two. -/
def IsPow2 (n : Int) : Prop := ∃ k : Nat, n = 2 ^ k

/-- Well-formedness of the struct caches of a `TypeMap`: every cached
layout has a power-of-two alignment.  Holds for the empty map and is
preserved by the engine. -/
def TypeMapWF (tm : TypeMap) : Prop :=
  (∀ p ∈ tm.named_structs, IsPow2 p.2.align) ∧ (∀ p ∈ tm.anon_structs, IsPow2 p.2.align)

/-- `struct Inner { int a; char b; };` -/
def innerSU : StructUnion :=
  .mk false (some "Inner")
    (some [ .Decl (some "a") (.ctype (basic_type ["int"])) none
          , .Decl (some "b") (.ctype (basic_type ["char"])) none ]) 4

/-- The type `struct Inner` as it appears in a member declaration. -/
def innerTy : CType := .TypeDecl none (.StructU innerSU)

/-- `struct Outer { struct Inner { int a; char b; } x; short t; };` -/
def outerSU : StructUnion :=
  .mk false (some "Outer")
    (some [ .Decl (some "x") (.ctype innerTy) none
          , .Decl (some "t") (.ctype (basic_type ["short"])) none ]) 5

/-- The layout of `struct Inner`: 4-byte-aligned `int` then `char`,
padded to size 8. -/
def innerS : Struct :=
  ⟨[(0, [⟨basic_type ["int"], "a"⟩]), (4, [⟨basic_type ["char"], "b"⟩])], 8, 4⟩

/-- The layout of `struct Outer`: the aggregate member `x` at 0 with its
leaves flattened in as `x.a` at 0 and `x.b` at 4, then `t` at 8. -/
def outerS : Struct :=
  ⟨[ (0, [⟨innerTy, "x"⟩, ⟨basic_type ["int"], "x.a"⟩])
   , (4, [⟨basic_type ["char"], "x.b"⟩])
   , (8, [⟨basic_type ["short"], "t"⟩])], 12, 4⟩

/-- The typemap after `struct Inner` has been parsed and cached. -/
def tmInner : TypeMap := ⟨[], [], [], [("Inner", innerS)], []⟩

/-- The member declarations of `union U { int a; char b; };`. -/
def uDecls : List DeclNode :=
  [ .Decl (some "a") (.ctype (basic_type ["int"])) none
  , .Decl (some "b") (.ctype (basic_type ["char"])) none ]

/-- `union U { int a; char b; };` -/
def unionU : StructUnion := .mk true (some "U") (some uDecls) 3

mutual

/-- All parameter names occurring syntactically in a type: a (safe
overapproximation of the) set of names the `Visitor` can write into
`var_types` while descending the type — `visit_Decl` fires on function
parameters too.  Struct/union and enum inner nodes are handled by the
layout engine resp. a typedef insertion, which never write `var_types`,
so they contribute nothing. -/
def ctypeParamNames : CType → List String
  | .TypeDecl _ _ => []
  | .PtrDecl inner => ctypeParamNames inner
  | .ArrayDecl inner _ => ctypeParamNames inner
  | .FuncDecl (some ps) ret => paramNodesNames ps ++ ctypeParamNames ret
  | .FuncDecl none ret => ctypeParamNames ret

/-- Parameter names of a parameter list, declarator names included. -/
def paramNodesNames : List ParamNode → List String
  | [] => []
  | .DeclParam (some nm) t :: rest => nm :: (ctypeParamNames t ++ paramNodesNames rest)
  | .DeclParam none t :: rest => ctypeParamNames t ++ paramNodesNames rest
  | .Typename t :: rest => ctypeParamNames t ++ paramNodesNames rest
  | .EllipsisParam :: rest => paramNodesNames rest
  | .IDParam _ :: rest => paramNodesNames rest

end

/-- Parameter names reachable from a declared member type. -/
def memberTypeParamNames : MemberType → List String
  | .ctype t => ctypeParamNames t
  | .anonSU _ => []

/-- Parameter names reachable from a `Visitor` request. -/
def vargParamNames : VArg → List String
  | .vmember mt => memberTypeParamNames mt
  | .vtype t => ctypeParamNames t
  | .vinner _ => []
  | .vparams ps => paramNodesNames ps

/-- The `var_types` keys the second pass can write while processing one
top-level item: its own declared name plus every parameter name its
visited types contain. -/
def extDeclWrites : ExtDecl → List String
  | .Typedef _ t => ctypeParamNames t
  | .FuncDef (some nm) _ => [nm]
  | .FuncDef none _ => []
  | .DeclExt (some nm) mt => nm :: memberTypeParamNames mt
  | .DeclExt none mt => memberTypeParamNames mt
  | .OtherExt => []

/-- A unit in which a later-visited function parameter shadows a
top-level declaration: `int x; void (*fp)(char x);`. -/
def astX : List ExtDecl :=
  [ .DeclExt (some "x") (.ctype (basic_type ["int"]))
  , .DeclExt (some "fp") (.ctype (.PtrDecl (.FuncDecl
      (some [.DeclParam (some "x") (basic_type ["char"])]) (basic_type ["void"])))) ]

/-- The typemap built for `astX`: `var_types["x"]` holds the parameter
type `char`, not the declared type `int`. -/
def tmX : TypeMap :=
  ⟨ []
  , [ ("x", .ctype (basic_type ["char"]))
    , ("fp", .ctype (.PtrDecl (.FuncDecl
        (some [.DeclParam (some "x") (basic_type ["char"])]) (basic_type ["void"])))) ]
  , [], [], [] ⟩

/-- A small translation unit: a function definition `f`, a function
prototype `g`, and a variable declaration `v`. -/
def astW : List ExtDecl :=
  [ .FuncDef (some "f") (.FuncDecl none (basic_type ["void"]))
  , .DeclExt (some "g") (.ctype (.FuncDecl none (basic_type ["int"])))
  , .DeclExt (some "v") (.ctype (basic_type ["int"])) ]

/-- The typemap `build_typemap` builds for `astW`: `f` and `g` in
`functions`, and `f`, `g`, `v` all in `var_types`. -/
def tmW : TypeMap :=
  ⟨ []
  , [ ("f", .ctype (.FuncDecl none (basic_type ["void"])))
    , ("g", .ctype (.FuncDecl none (basic_type ["int"])))
    , ("v", .ctype (basic_type ["int"])) ]
  , [ ("f", ⟨none, none, false⟩), ("g", ⟨some (basic_type ["int"]), none, false⟩) ]
  , [], [] ⟩

/-- `struct B2 { unsigned a : 4; unsigned : 0; unsigned b : 4; };` -/
def structB2 : StructUnion :=
  .mk false (some "B2")
    (some [ .Decl (some "a") (.ctype (basic_type ["unsigned"])) (some (.Constant "4"))
          , .Decl none (.ctype (basic_type ["unsigned"])) (some (.Constant "0"))
          , .Decl (some "b") (.ctype (basic_type ["unsigned"])) (some (.Constant "4")) ]) 0

/-- What a successful engine result guarantees, per request kind (used
by the engine invariant): alignments are powers of two, and the layout
loop preserves power-of-two state alignment. -/
def ResWF : PArg → PRes → Prop
  | .member _, .memberRes _ al sub => IsPow2 al ∧ ∀ s, sub = some s → IsPow2 s.align
  | .pstruct _, .structRes s => IsPow2 s.align
  | .pdo _, .structRes s => IsPow2 s.align
  | .pdecls _ _ st, .stateRes st' => IsPow2 st.align → IsPow2 st'.align
  | .pstep _ _ st, .stateRes st' => IsPow2 st.align → IsPow2 st'.align
  | _, _ => True

/-- Shorthand for the engine invariant's conclusion. -/
def EngineConc (a : PArg) (tm tm' : TypeMap) (r : Except Err PRes) : Prop :=
  tm'.typedefs = tm.typedefs ∧ tm'.var_types = tm.var_types ∧ tm'.functions = tm.functions ∧
    (TypeMapWF tm → TypeMapWF tm' ∧ ∀ res, r = .ok res → ResWF a res)

/-- Relates a union layout run to the size collector: the collector ends
in the same typemap and its contributions fold (by running maximum) from
the starting `union_size` `u` to the final one `u'`. -/
def unionAgrees (tmA : TypeMap) (u u' : Int) : TypeMap × Except Err (List Int) → Prop
  | (tmB, .ok sizes) => tmB = tmA ∧ u' = sizes.foldl max u
  | _ => False

/-- `struct S { int a[]; };` — a complete definition whose layout fails
(array member without a size). -/
def structBadArray : StructUnion :=
  .mk false (some "S")
    (some [.Decl (some "a") (.ctype (.ArrayDecl (basic_type ["int"]) none)) none]) 1

/-- `struct Inc;` used before its definition (`decls` is absent). -/
def structInc : StructUnion := .mk false (some "Inc") none 2

/-- A cached layout for the tag `Inc`. -/
def cachedS : Struct := ⟨[], 4, 4⟩

/-- A typemap whose cache already holds a layout for `Inc`. -/
def tmCached : TypeMap := ⟨[], [], [], [("Inc", cachedS)], []⟩

/-- C1 (code bug): on `struct B2 { unsigned a : 4; unsigned : 0; unsigned
b : 4; }` the layout engine returns size 4 and align 4, not the size 8
the specification (and the C bitfield rule it restates) requires: the
`width == 0` branch of `do_parse_struct` merely `continue`s without
terminating the bitfield run, so `b` is packed into the same 4-byte unit
as `a`.  No field entries are produced since all members are bitfields. -/
theorem c1_zero_width_bitfield_code_eval :
    (do_parse_struct 10 structB2 emptyTypeMap).2 = .ok ⟨[], 4, 4⟩ := by
  rfl
/-! ### Bitwise groundwork -/

/-- Bit-level characterization of `natBits`. -/
theorem natBits_testBit (f : Bool → Bool → Bool) (hff : f false false = false) :
    ∀ (fuel m n : Nat), m < 2 ^ fuel → n < 2 ^ fuel → ∀ i,
      (natBits f fuel m n).testBit i = f (m.testBit i) (n.testBit i) := by
  intro fuel
  induction fuel with
  | zero =>
    intro m n hm hn i
    simp only [pow_zero, Nat.lt_one_iff] at hm hn
    subst hm; subst hn
    simp [natBits, hff]
  | succ fuel ih =>
    intro m n hm hn i
    rw [natBits]
    by_cases h0 : m = 0 ∧ n = 0
    · obtain ⟨h1, h2⟩ := h0
      subst h1; subst h2
      simp [hff]
    · rw [if_neg h0]
      have hm2 : m / 2 < 2 ^ fuel := by
        rw [Nat.div_lt_iff_lt_mul (by norm_num : 0 < 2)]
        calc m < 2 ^ (fuel + 1) := hm
        _ = 2 ^ fuel * 2 := by ring
      have hn2 : n / 2 < 2 ^ fuel := by
        rw [Nat.div_lt_iff_lt_mul (by norm_num : 0 < 2)]
        calc n < 2 ^ (fuel + 1) := hn
        _ = 2 ^ fuel * 2 := by ring
      set b : Nat := if f (m % 2 = 1) (n % 2 = 1) then 1 else 0 with hb
      have hble : b ≤ 1 := by rw [hb]; split <;> omega
      cases i with
      | zero =>
        have hmod : (b + 2 * natBits f fuel (m / 2) (n / 2)) % 2 = b := by omega
        simp only [Nat.testBit_zero, hmod, hb]
        rcases Nat.mod_two_eq_zero_or_one m with h | h <;>
          rcases Nat.mod_two_eq_zero_or_one n with h' | h' <;>
          simp [h, h']
      | succ i =>
        have hdiv : (b + 2 * natBits f fuel (m / 2) (n / 2)) / 2
            = natBits f fuel (m / 2) (n / 2) := by omega
        rw [Nat.testBit_succ, hdiv, Nat.testBit_succ, Nat.testBit_succ]
        exact ih (m / 2) (n / 2) hm2 hn2 i

theorem lt_two_pow_le (m k : Nat) (h : m ≤ k) : m < 2 ^ k :=
  lt_of_lt_of_le (Nat.lt_two_pow m) (Nat.pow_le_pow_right (by norm_num) h)

theorem natAnd_eq (m n : Nat) : natAnd m n = m &&& n := by
  apply Nat.eq_of_testBit_eq
  intro i
  rw [natAnd, natBits_testBit _ rfl _ _ _ (lt_two_pow_le m _ (by omega))
      (lt_two_pow_le n _ (by omega)), Nat.testBit_land]

theorem natOr_eq (m n : Nat) : natOr m n = m ||| n := by
  apply Nat.eq_of_testBit_eq
  intro i
  rw [natOr, natBits_testBit _ rfl _ _ _ (lt_two_pow_le m _ (by omega))
      (lt_two_pow_le n _ (by omega)), Nat.testBit_lor]

theorem natLdiff_eq (m n : Nat) : natLdiff m n = Nat.ldiff m n := by
  apply Nat.eq_of_testBit_eq
  intro i
  rw [natLdiff, natBits_testBit _ rfl _ _ _ (lt_two_pow_le m _ (by omega))
      (lt_two_pow_le n _ (by omega)), Nat.testBit_ldiff]

/-- The embedding's `pyAnd` is the two's-complement bitwise and of the
library. -/
theorem pyAnd_eq_land (x y : Int) : pyAnd x y = Int.land x y := by
  cases x <;> cases y <;>
    simp only [pyAnd, Int.land, natAnd_eq, natOr_eq, natLdiff_eq, Int.ofNat_eq_natCast]

/-- Masking with the two's complement of a power of two yields a multiple
of that power (the `(x + align - 1) & -align` rounding trick of the
source). -/
theorem pyAnd_neg_pow2_dvd (x : Int) (k : Nat) : ((2 : Int) ^ k) ∣ pyAnd x (-(2 ^ k)) := by
  have hcast : ((2 : Int) ^ k) = ((2 ^ k : Nat) : Int) := by push_cast; ring
  have hpos : 1 ≤ 2 ^ k := Nat.one_le_two_pow
  have hneg : (-(2 ^ k) : Int) = Int.negSucc (2 ^ k - 1) := by
    rw [hcast, Int.negSucc_eq]
    push_cast
    omega
  rw [hneg, pyAnd_eq_land]
  cases x with
  | ofNat n =>
    show ((2 : Int) ^ k) ∣ Int.ofNat (Nat.ldiff n (2 ^ k - 1))
    rw [hcast, Int.ofNat_eq_natCast, Int.natCast_dvd_natCast]
    have hmod : Nat.ldiff n (2 ^ k - 1) % 2 ^ k = 0 := by
      have h0 : Nat.ldiff n (2 ^ k - 1) % 2 ^ k = 0 % 2 ^ k := by
        apply Nat.eq_of_testBit_eq
        intro i
        rw [Nat.testBit_mod_two_pow, Nat.testBit_mod_two_pow, Nat.testBit_ldiff,
            Nat.testBit_two_pow_sub_one, Nat.zero_testBit]
        by_cases h : i < k <;> simp [h]
      simpa using h0
    exact Nat.dvd_of_mod_eq_zero hmod
  | negSucc n =>
    show ((2 : Int) ^ k) ∣ Int.negSucc (n ||| (2 ^ k - 1))
    rw [Int.negSucc_eq, Int.dvd_neg, hcast]
    have hmod : (n ||| (2 ^ k - 1)) % 2 ^ k = 2 ^ k - 1 := by
      have h0 : (n ||| (2 ^ k - 1)) % 2 ^ k = (2 ^ k - 1) % 2 ^ k := by
        apply Nat.eq_of_testBit_eq
        intro i
        rw [Nat.testBit_mod_two_pow, Nat.testBit_mod_two_pow, Nat.testBit_lor,
            Nat.testBit_two_pow_sub_one]
        by_cases h : i < k <;> simp [h]
      rw [h0, Nat.mod_eq_of_lt (by omega)]
    have hdvd : 2 ^ k ∣ (n ||| (2 ^ k - 1)) + 1 := by
      have hdm := Nat.div_add_mod (n ||| (2 ^ k - 1)) (2 ^ k)
      refine ⟨(n ||| (2 ^ k - 1)) / 2 ^ k + 1, ?_⟩
      rw [Nat.mul_add, Nat.mul_one]
      omega
    have h2 : ((2 ^ k : Nat) : Int) ∣ (((n ||| (2 ^ k - 1)) + 1 : Nat) : Int) :=
      Int.natCast_dvd_natCast.mpr hdvd
    push_cast at h2 ⊢
    exact h2

/-- `pyAnd x (-a) % a = 0` for a power of two `a`. -/
theorem pyAnd_pow2_emod (x a : Int) (h : IsPow2 a) : pyAnd x (-a) % a = 0 := by
  obtain ⟨k, rfl⟩ := h
  exact Int.emod_eq_zero_of_dvd (pyAnd_neg_pow2_dvd x k)

/-! ### C3: parse_function parameter-list shapes -/

/-- C3: `parse_function` distinguishes empty parameter lists: `f()` (no
declared parameters) gives `params = none`; `f(void)` (a single `void`
`Typename`) gives `params = some []` and not variadic; `f(int)` gives the
one-element list; `f(int, ...)` gives that list with `is_variadic`. -/
theorem c3_parse_function_param_shapes :
    parse_function (.FuncDecl none (basic_type ["int"]))
      = .ok ⟨some (basic_type ["int"]), none, false⟩ ∧
    parse_function (.FuncDecl (some [.Typename (basic_type ["void"])]) (basic_type ["int"]))
      = .ok ⟨some (basic_type ["int"]), some [], false⟩ ∧
    parse_function (.FuncDecl (some [.Typename (basic_type ["int"])]) (basic_type ["int"]))
      = .ok ⟨some (basic_type ["int"]), some [⟨basic_type ["int"], none⟩], false⟩ ∧
    parse_function
        (.FuncDecl (some [.Typename (basic_type ["int"]), .EllipsisParam]) (basic_type ["int"]))
      = .ok ⟨some (basic_type ["int"]), some [⟨basic_type ["int"], none⟩], true⟩ :=
  ⟨rfl, rfl, rfl, rfl⟩

/-! ### C2: parse_constant_int literal bases -/

/-- C2 counterexample: on the octal-looking literal `010` the constant
folder raises `DecompFailure` instead of returning 8: Python 3's
`int(s, 0)` rejects a leading zero followed by further digits (only the
`0o` prefix selects octal), contradicting the claim that a leading `0`
selects base 8. -/
theorem c2_octal_literal_counterexample :
    parse_constant_int (.Constant "010")
      = .error (.decompFailure "Failed to parse as an int literal") := rfl

/-- Characters outside a predicate leave `dropWhile` untouched. -/
theorem dropWhile_eq_self_of_all {p : Char → Bool} :
    ∀ l : List Char, (∀ c ∈ l, p c = false) → l.dropWhile p = l
  | [], _ => rfl
  | c :: rest, h => by
    rw [List.dropWhile_cons, h c (by simp)]
    simp

/-- `dropWhile` over an all-satisfying prefix. -/
theorem dropWhile_append_of_all {p : Char → Bool} :
    ∀ a b : List Char, (∀ c ∈ a, p c = true) → (a ++ b).dropWhile p = b.dropWhile p
  | [], b, _ => rfl
  | c :: rest, b, h => by
    rw [List.cons_append, List.dropWhile_cons, h c (by simp)]
    exact dropWhile_append_of_all rest b (fun c hc => h c (by simp [hc]))

/-- `rstrip` removes exactly an all-strippable suffix when the kept part
ends in a non-strippable character. -/
theorem pyRstrip_append (ds suffix chars : List Char)
    (h1 : ∀ c ∈ suffix, chars.contains c = true)
    (h2 : ∀ c ∈ ds, chars.contains c = false) :
    pyRstrip (ds ++ suffix) chars = ds := by
  unfold pyRstrip
  rw [List.reverse_append,
      dropWhile_append_of_all _ _ (fun c hc => h1 c (List.mem_reverse.mp hc)),
      dropWhile_eq_self_of_all _ (fun c hc => h2 c (List.mem_reverse.mp hc)),
      List.reverse_reverse]

/-- A base-`b` digit (`b ≤ 16`) is not whitespace, not an integer-suffix
letter, not a sign, and not a quote of the base prefix position. -/
theorem isDigitBase_char_facts (b : Nat) (c : Char) (h : isDigitBase b c = true) :
    c.isWhitespace = false ∧ (['l', 'L', 'u', 'U'] : List Char).contains c = false ∧
      c ≠ '-' ∧ c ≠ '+' := by
  have hv : (48 ≤ c.toNat ∧ c.toNat ≤ 57) ∨ (97 ≤ c.toNat ∧ c.toNat ≤ 102) ∨
      (65 ≤ c.toNat ∧ c.toNat ≤ 70) := by
    simp only [isDigitBase, Bool.decide_and, Bool.and_eq_true, decide_eq_true_eq] at h
    exact h.1
  refine ⟨?_, ?_, ?_, ?_⟩
  · by_contra hw
    rw [Bool.not_eq_false] at hw
    have h3 : c = ' ' ∨ c = '\t' ∨ c = '\r' ∨ c = '\n' := by
      have h4 := hw
      simp only [Char.isWhitespace, Bool.or_eq_true, decide_eq_true_eq] at h4
      tauto
    rcases h3 with h' | h' | h' | h' <;> subst h' <;> simp at hv
  · by_contra hm
    rw [Bool.not_eq_false] at hm
    have h3 : c = 'l' ∨ c = 'L' ∨ c = 'u' ∨ c = 'U' := by
      have h4 := hm
      simp only [List.contains, List.elem_eq_mem, List.mem_cons, List.not_mem_nil, or_false,
        decide_eq_true_eq] at h4
      tauto
    rcases h3 with h' | h' | h' | h' <;> subst h' <;> simp at hv
  · rintro rfl; simp at hv
  · rintro rfl; simp at hv

/-- `int(s, 0)` on a plain decimal digit run with no leading zero. -/
theorem pyIntBase0_digits (ds : List Char) (hne : ds ≠ [])
    (hd : ∀ c ∈ ds, isDigitBase 10 c = true) (h0 : ds.head? ≠ some '0') :
    pyIntBase0 ds = some ((digitsToNat 10 ds : Nat) : Int) := by
  have hnw : ∀ c ∈ ds, (fun c => c.isWhitespace) c = false :=
    fun c hc => (isDigitBase_char_facts 10 c (hd c hc)).1
  unfold pyIntBase0
  rw [dropWhile_eq_self_of_all _ hnw,
      dropWhile_eq_self_of_all _ (fun c hc => hnw c (List.mem_reverse.mp hc)),
      List.reverse_reverse]
  cases ds with
  | nil => exact absurd rfl hne
  | cons c rest =>
    have hfacts := isDigitBase_char_facts 10 c (hd c (by simp))
    have hc0 : c ≠ '0' := by
      intro h
      exact h0 (by rw [h]; rfl)
    rw [pyIntBase0Signed, if_neg hfacts.2.2.1, if_neg hfacts.2.2.2]
    have hmag : pyIntBase0Mag (c :: rest) = some (digitsToNat 10 (c :: rest)) := by
      have hpd : parseDigits 10 (c :: rest) = some (digitsToNat 10 (c :: rest)) := by
        unfold parseDigits
        rw [if_pos]
        exact ⟨by simp, List.all_eq_true.mpr (fun x hx => hd x hx)⟩
      cases rest with
      | nil => exact hpd
      | cons c1 rest' =>
        simp only [pyIntBase0Mag]
        rw [if_neg (fun (h : c = '0' ∧ _) => hc0 h.1), if_neg (fun (h : c = '0' ∧ _) => hc0 h.1),
            if_neg (fun (h : c = '0' ∧ _) => hc0 h.1), if_neg hc0]
        exact hpd
    rw [hmag]
    rfl

/-- `int(s, 0)` on a `0x`-prefixed hexadecimal digit run. -/
theorem pyIntBase0_hex (ds : List Char) (hne : ds ≠ [])
    (hd : ∀ c ∈ ds, isDigitBase 16 c = true) :
    pyIntBase0 ('0' :: 'x' :: ds) = some ((digitsToNat 16 ds : Nat) : Int) := by
  have hnw : ∀ c ∈ ('0' :: 'x' :: ds), (fun c => c.isWhitespace) c = false := by
    intro c hc
    simp only [List.mem_cons] at hc
    rcases hc with rfl | rfl | hc
    · decide
    · decide
    · exact (isDigitBase_char_facts 16 c (hd c hc)).1
  unfold pyIntBase0
  rw [dropWhile_eq_self_of_all _ hnw,
      dropWhile_eq_self_of_all _ (fun c hc => hnw c (List.mem_reverse.mp hc)),
      List.reverse_reverse]
  rw [pyIntBase0Signed, if_neg (by decide : ¬('0' : Char) = '-'),
      if_neg (by decide : ¬('0' : Char) = '+')]
  have hmag : pyIntBase0Mag ('0' :: 'x' :: ds) = some (digitsToNat 16 ds) := by
    simp only [pyIntBase0Mag]
    rw [if_pos (by simp)]
    unfold parseDigits
    rw [if_pos]
    exact ⟨hne, List.all_eq_true.mpr (fun x hx => hd x hx)⟩
  rw [hmag]
  rfl

/-- C2 (amended): `parse_constant_int` strips trailing `l/L/u/U` from an
integer `Constant` and infers the base from the remainder, but by Python
3 rules: a `0x` prefix selects hexadecimal and a zero-free-leading digit
run is decimal (both returning the integer value), while a leading `0`
followed by further digits (legacy octal such as `010`) is rejected with
`DecompFailure` — only a `0o` prefix selects octal. -/
theorem c2_parse_constant_int_bases :
    (∀ ds suffix : List Char, ds ≠ [] → (∀ c ∈ ds, isDigitBase 10 c = true) →
      ds.head? ≠ some '0' → (∀ c ∈ suffix, c ∈ (['l', 'L', 'u', 'U'] : List Char)) →
      parse_constant_int (.Constant (String.mk (ds ++ suffix)))
        = .ok ((digitsToNat 10 ds : Nat) : Int)) ∧
    (∀ ds suffix : List Char, ds ≠ [] → (∀ c ∈ ds, isDigitBase 16 c = true) →
      (∀ c ∈ suffix, c ∈ (['l', 'L', 'u', 'U'] : List Char)) →
      parse_constant_int (.Constant (String.mk ('0' :: 'x' :: (ds ++ suffix))))
        = .ok ((digitsToNat 16 ds : Nat) : Int)) ∧
    parse_constant_int (.Constant "010")
      = .error (.decompFailure "Failed to parse as an int literal") := by
  have hmk : ∀ l : List Char, (String.mk l).toList = l := fun _ => rfl
  have hsuffix : ∀ suffix : List Char, (∀ c ∈ suffix, c ∈ (['l', 'L', 'u', 'U'] : List Char)) →
      ∀ c ∈ suffix, (['l', 'L', 'u', 'U'] : List Char).contains c = true := by
    intro suffix h c hc
    simp only [List.contains, List.elem_eq_mem, decide_eq_true_eq]
    exact h c hc
  refine ⟨?_, ?_, rfl⟩
  · intro ds suffix hne hd h0 hsuf
    simp only [parse_constant_int, hmk]
    rw [pyRstrip_append ds suffix _ (hsuffix suffix hsuf)
        (fun c hc => (isDigitBase_char_facts 10 c (hd c hc)).2.1),
      pyIntBase0_digits ds hne hd h0]
  · intro ds suffix hne hd hsuf
    simp only [parse_constant_int, hmk]
    have hpre : ('0' :: 'x' :: (ds ++ suffix)) = ('0' :: 'x' :: ds) ++ suffix := by simp
    rw [hpre, pyRstrip_append ('0' :: 'x' :: ds) suffix _ (hsuffix suffix hsuf) ?side,
      pyIntBase0_hex ds hne hd]
    case side =>
      intro c hc
      simp only [List.mem_cons] at hc
      rcases hc with rfl | rfl | hc
      · decide
      · decide
      · exact (isDigitBase_char_facts 16 c (hd c hc)).2.1

/-- Witness for `c2_parse_constant_int_bases`: `25uL` parses as decimal
25 and `0x1fU` as hexadecimal 31. -/
theorem c2_parse_constant_int_bases_witness :
    parse_constant_int (.Constant (String.mk (['2', '5'] ++ ['u', 'L']))) = .ok 25 ∧
    parse_constant_int (.Constant (String.mk ('0' :: 'x' :: (['1', 'f'] ++ ['U'])))) = .ok 31 :=
  ⟨c2_parse_constant_int_bases.1 ['2', '5'] ['u', 'L'] (by decide) (by decide) (by decide)
      (by decide),
   c2_parse_constant_int_bases.2.1 ['1', 'f'] ['U'] (by decide) (by decide) (by decide)⟩

/-! ### C6: pointer_decay is stable and yields a SimpleType -/

/-- Typedef resolution leaves a pointer type unchanged. -/
theorem resolve_fix_ptr (tm : TypeMap) (p : CType) :
    resolve_typedefs (.PtrDecl p) tm = .PtrDecl p := by
  unfold resolve_typedefs
  cases tm.typedefs.length <;> simp [resolveTypedefsAux]

/-- Typedef resolution leaves an array type unchanged. -/
theorem resolve_fix_array (tm : TypeMap) (e : CType) (d : Option CExpr) :
    resolve_typedefs (.ArrayDecl e d) tm = .ArrayDecl e d := by
  unfold resolve_typedefs
  cases tm.typedefs.length <;> simp [resolveTypedefsAux]

/-- Typedef resolution leaves a function type unchanged. -/
theorem resolve_fix_func (tm : TypeMap) (a : Option (List ParamNode)) (r : CType) :
    resolve_typedefs (.FuncDecl a r) tm = .FuncDecl a r := by
  unfold resolve_typedefs
  cases tm.typedefs.length <;> simp [resolveTypedefsAux]

/-- C6: `pointer_decay` is stable after one application (for any typemap
that does not bind the name `int` as a typedef — `build_typemap` can
never produce such a binding, `int` being a C keyword), and its result
is always a `SimpleType`: a `PtrDecl` or a `TypeDecl`, never an
`ArrayDecl` or a `FuncDecl`. -/
theorem c6_pointer_decay_stable (t : CType) (tm : TypeMap)
    (h : dlookup tm.typedefs "int" = none) :
    pointer_decay (pointer_decay t tm) tm = pointer_decay t tm ∧
    isSimpleType (pointer_decay t tm) = true := by
  have hint : resolve_typedefs (basic_type ["int"]) tm = basic_type ["int"] := by
    unfold resolve_typedefs
    cases tm.typedefs.length with
    | zero => rfl
    | succ n => simp [resolveTypedefsAux, basic_type, h]
  have hpd_ptr : ∀ p : CType, pointer_decay (.PtrDecl p) tm = .PtrDecl p := by
    intro p
    unfold pointer_decay
    rw [resolve_fix_ptr]
  have hpd_int : pointer_decay (basic_type ["int"]) tm = basic_type ["int"] := by
    unfold pointer_decay
    rw [hint]
    rfl
  cases hr : resolve_typedefs t tm with
  | TypeDecl dn inner =>
    cases inner with
    | IdentifierType names =>
      have hpd : pointer_decay t tm = t := by unfold pointer_decay; rw [hr]
      rw [hpd]
      refine ⟨hpd, ?_⟩
      cases t with
      | TypeDecl _ _ => rfl
      | PtrDecl _ => rfl
      | ArrayDecl e d => rw [resolve_fix_array] at hr; exact absurd hr (by simp)
      | FuncDecl a r => rw [resolve_fix_func] at hr; exact absurd hr (by simp)
    | Enum e =>
      have hpd : pointer_decay t tm = basic_type ["int"] := by unfold pointer_decay; rw [hr]
      rw [hpd]
      exact ⟨hpd_int, rfl⟩
    | StructU su =>
      have hpd : pointer_decay t tm = t := by unfold pointer_decay; rw [hr]
      rw [hpd]
      refine ⟨hpd, ?_⟩
      cases t with
      | TypeDecl _ _ => rfl
      | PtrDecl _ => rfl
      | ArrayDecl e d => rw [resolve_fix_array] at hr; exact absurd hr (by simp)
      | FuncDecl a r => rw [resolve_fix_func] at hr; exact absurd hr (by simp)
  | PtrDecl p =>
    have hpd : pointer_decay t tm = t := by unfold pointer_decay; rw [hr]
    rw [hpd]
    refine ⟨hpd, ?_⟩
    cases t with
    | TypeDecl _ _ => rfl
    | PtrDecl _ => rfl
    | ArrayDecl e d => rw [resolve_fix_array] at hr; exact absurd hr (by simp)
    | FuncDecl a r => rw [resolve_fix_func] at hr; exact absurd hr (by simp)
  | ArrayDecl elem dim =>
    have hpd : pointer_decay t tm = .PtrDecl elem := by unfold pointer_decay; rw [hr]
    rw [hpd]
    exact ⟨hpd_ptr elem, rfl⟩
  | FuncDecl args ret =>
    have hpd : pointer_decay t tm = .PtrDecl t := by unfold pointer_decay; rw [hr]
    rw [hpd]
    exact ⟨hpd_ptr t, rfl⟩

/-- Witness for `c6_pointer_decay_stable` at `t = int`, `tm` empty. -/
theorem c6_pointer_decay_stable_witness :
    pointer_decay (pointer_decay (basic_type ["int"]) emptyTypeMap) emptyTypeMap
      = pointer_decay (basic_type ["int"]) emptyTypeMap ∧
    isSimpleType (pointer_decay (basic_type ["int"]) emptyTypeMap) = true :=
  c6_pointer_decay_stable (basic_type ["int"]) emptyTypeMap rfl

/-! ### C9: bitfields contribute no field-table entries -/

/-- `engine` with no fuel fails. -/
theorem engine_zero (a : PArg) (tm : TypeMap) : engine 0 a tm = (tm, .error .fuel) := rfl

set_option maxHeartbeats 1000000 in
/-- C9: a declaration carrying a bitsize never inserts a `StructField`:
one layout-loop iteration on a bitfield declaration — named or not, in a
struct or a union — returns a state whose `fields` table is exactly the
incoming one; the declaration contributes only to alignment, size and
offset bookkeeping. -/
theorem c9_bitfields_add_no_fields (fuel : Nat) (isUnion : Bool) (dname : Option String)
    (mt : MemberType) (bs : CExpr) (st st' : LayoutState) (tm tm' : TypeMap)
    (h : layoutStep fuel isUnion (.Decl dname mt (some bs)) st tm = (tm', .ok st')) :
    st'.fields = st.fields := by
  unfold layoutStep at h
  cases fuel with
  | zero => rw [engine_zero] at h; simp at h
  | succ f =>
    simp only [engine] at h
    split at h
    case h_2 => simp at h
    case h_3 => simp at h
    case h_1 tmx stx heq =>
      simp only [Prod.mk.injEq, Except.ok.injEq] at h
      obtain ⟨rfl, rfl⟩ := h
      repeat' split at heq
      all_goals
        simp only [Prod.mk.injEq, Except.ok.injEq, Except.error.injEq,
          PRes.stateRes.injEq, reduceCtorEq, false_and, and_false] at heq
      all_goals (obtain ⟨rfl, rfl⟩ := heq; rfl)

/-- Witness for `c9_bitfields_add_no_fields`: laying out
`unsigned x : 1;` from the initial state adds no field entry. -/
theorem c9_bitfields_add_no_fields_witness :
    (⟨[], 0, 4, 0, 1⟩ : LayoutState).fields = initLayout.fields :=
  c9_bitfields_add_no_fields 3 false (some "x") (.ctype (basic_type ["unsigned"]))
    (.Constant "1") initLayout ⟨[], 0, 4, 0, 1⟩ emptyTypeMap emptyTypeMap rfl

/-! ### C8: when parse_struct raises -/

/-- C8 counterexample: `parse_struct` also raises `DecompFailure` on a
node whose `decls` is present, by propagating a member-layout failure —
here an array field without a size — so "raises exactly when decls is
None" is too strong. -/
theorem c8_raises_exactly_counterexample :
    parse_struct 8 structBadArray emptyTypeMap
      = (emptyTypeMap, .error (.decompFailure "Array field must have a size")) ∧
    structBadArray.decls.isSome = true :=
  ⟨rfl, rfl⟩

/-- C8 (amended): `parse_struct` raises the incomplete-struct
`DecompFailure` whenever the node has `decls = None` and no layout is
cached — and in that case no `Struct` is returned and the typemap is
left untouched, so nothing is added to `named_structs` or
`anon_structs`; when a layout is cached it is returned without raising.
(When `decls` is present `parse_struct` can still raise, by propagating
a layout failure of a member — see
`c8_raises_exactly_counterexample`.) -/
theorem c8_amended_incomplete_struct (fuel : Nat) (su : StructUnion) (tm : TypeMap) :
    (su.decls = none → get_struct su tm = none →
      parse_struct (fuel + 1) su tm
        = (tm, .error (.decompFailure "Tried to use struct before it is defined"))) ∧
    (∀ s, get_struct su tm = some s → parse_struct (fuel + 1) su tm = (tm, .ok s)) := by
  constructor
  · intro hdecls hcache
    obtain ⟨iu, nm, d, uid⟩ := su
    simp only [StructUnion.decls] at hdecls
    subst hdecls
    unfold parse_struct
    simp only [engine]
    rw [hcache]
  · intro s hcache
    unfold parse_struct
    simp only [engine]
    rw [hcache]

/-- Witness for `c8_amended_incomplete_struct`: an incomplete `struct
Inc` raises on an empty typemap and is returned from a primed cache. -/
theorem c8_amended_incomplete_struct_witness :
    parse_struct 6 structInc emptyTypeMap
      = (emptyTypeMap, .error (.decompFailure "Tried to use struct before it is defined")) ∧
    parse_struct 6 structInc tmCached = (tmCached, .ok cachedS) :=
  ⟨(c8_amended_incomplete_struct 5 structInc emptyTypeMap).1 rfl rfl,
   (c8_amended_incomplete_struct 5 structInc tmCached).2 cachedS rfl⟩

/-! ### C7: strip_comments preserves newlines and passes literals through -/

/-- A block-comment terminator split reassembles the input. -/
theorem findBlockEnd_append :
    ∀ cs l r : List Char, findBlockEnd cs = some (l, r) → cs = l ++ r := by
  intro cs
  induction cs using findBlockEnd.induct with
  | case1 rest =>
    intro l r h
    simp only [findBlockEnd, Option.some.injEq, Prod.mk.injEq] at h
    simp [← h.1, ← h.2]
  | case2 c rest hne l' r' hsome ih =>
    intro l r h
    rw [findBlockEnd] at h
    · rw [hsome] at h
      simp only [Option.some.injEq, Prod.mk.injEq] at h
      obtain ⟨h1, h2⟩ := h
      subst h1; subst h2
      rw [ih l' r' hsome]
      rfl
    · exact hne
  | case3 c rest hne hnone ih =>
    intro l r h
    rw [findBlockEnd] at h
    · rw [hnone] at h
      simp at h
    · exact hne
  | case4 =>
    intro l r h
    simp [findBlockEnd] at h

/-- One-step unfolding of `matchLitAux` on a cons cell. -/
theorem matchLitAux_cons (q c : Char) (rest : List Char) :
    matchLitAux q (c :: rest) =
      if c = q then some ([q], rest)
      else if c = '\\' then
        match rest with
        | [] => none
        | e :: rest' =>
          match matchLitAux q rest' with
          | some (l, r) => some ('\\' :: e :: l, r)
          | none => none
      else
        match matchLitAux q rest with
        | some (l, r) => some (c :: l, r)
        | none => none := by
  rw [matchLitAux.eq_def]

/-- A literal-body split reassembles the input. -/
theorem matchLitAux_append (q : Char) :
    ∀ cs l r : List Char, matchLitAux q cs = some (l, r) → cs = l ++ r := by
  intro cs
  induction cs using matchLitAux.induct q with
  | case1 =>
    intro l r h
    simp [matchLitAux] at h
  | case2 rest =>
    intro l r h
    rw [matchLitAux_cons, if_pos (rfl : q = q)] at h
    simp only [Option.some.injEq, Prod.mk.injEq] at h
    obtain ⟨h1, h2⟩ := h
    subst h1; subst h2
    rfl
  | case3 hq =>
    intro l r h
    rw [matchLitAux_cons, if_neg hq, if_pos (rfl : ('\\' : Char) = '\\')] at h
    simp at h
  | case4 c rest l' r' hsome hq ih =>
    intro l r h
    rw [matchLitAux_cons, if_neg hq, if_pos (rfl : ('\\' : Char) = '\\')] at h
    have h' : (match matchLitAux q rest with
        | some (l, r) => some ('\\' :: c :: l, r)
        | none => none) = some (l, r) := h
    rw [hsome] at h'
    simp only [Option.some.injEq, Prod.mk.injEq] at h'
    obtain ⟨h1, h2⟩ := h'
    subst h1; subst h2
    rw [ih l' r' hsome]
    rfl
  | case5 c rest hnone hq ih =>
    intro l r h
    rw [matchLitAux_cons, if_neg hq, if_pos (rfl : ('\\' : Char) = '\\')] at h
    have h' : (match matchLitAux q rest with
        | some (l, r) => some ('\\' :: c :: l, r)
        | none => none) = some (l, r) := h
    rw [hnone] at h'
    simp at h'
  | case6 c rest hcq hcbs l' r' hsome ih =>
    intro l r h
    rw [matchLitAux_cons, if_neg hcq, if_neg hcbs] at h
    rw [hsome] at h
    simp only [Option.some.injEq, Prod.mk.injEq] at h
    obtain ⟨h1, h2⟩ := h
    subst h1; subst h2
    rw [ih l' r' hsome]
    rfl
  | case7 c rest hcq hcbs hnone ih =>
    intro l r h
    rw [matchLitAux_cons, if_neg hcq, if_neg hcbs] at h
    rw [hnone] at h
    simp at h

/-- A literal match splits the input into the literal and the rest. -/
theorem matchLit_append (cs l r : List Char) (h : matchLit cs = some (l, r)) :
    cs = l ++ r := by
  cases cs with
  | nil => simp [matchLit] at h
  | cons c rest =>
    simp only [matchLit] at h
    split at h
    · cases haux : matchLitAux c rest with
      | none => rw [haux] at h; simp at h
      | some pr =>
        obtain ⟨l', r'⟩ := pr
        rw [haux] at h
        simp only [Option.some.injEq, Prod.mk.injEq] at h
        obtain ⟨h1, h2⟩ := h
        subst h1; subst h2
        rw [matchLitAux_append c rest l' r' haux]
        rfl
    · simp at h

/-- The part of a line before its newline contains no newline. -/
theorem countNl_takeWhile_ne_nl (l : List Char) :
    countNl (l.takeWhile (fun x => decide (x ≠ '\n'))) = 0 := by
  unfold countNl
  rw [List.count_eq_zero]
  intro hmem
  have := List.mem_takeWhile_imp hmem
  simp at this

/-- The scan of `strip_comments` preserves the newline count, for any
fuel. -/
theorem stripAux_countNl : ∀ (fuel : Nat) (cs : List Char),
    countNl (stripAux fuel cs) = countNl cs := by
  intro fuel cs
  induction fuel, cs using stripAux.induct with
  | case1 cs => rfl
  | case2 n => rfl
  | case3 fuel rest ih =>
    show countNl (' ' :: stripAux fuel (rest.dropWhile (fun x => decide (x ≠ '\n'))))
      = countNl ('/' :: '/' :: rest)
    have hsplit : rest.takeWhile (fun x => decide (x ≠ '\n'))
        ++ rest.dropWhile (fun x => decide (x ≠ '\n')) = rest :=
      List.takeWhile_append_dropWhile _ _
    have hz := countNl_takeWhile_ne_nl rest
    have h3 : List.count '\n' rest
        = List.count '\n' (rest.takeWhile (fun x => decide (x ≠ '\n')))
          + List.count '\n' (rest.dropWhile (fun x => decide (x ≠ '\n'))) := by
      conv_lhs => rw [← hsplit]
      rw [List.count_append]
    unfold countNl at *
    simp only [List.count_cons, ih, h3, hz]
    simp
  | case4 fuel rest l r hsome ih =>
    have hshow : stripAux (fuel + 1) ('/' :: '*' :: rest)
        = (match findBlockEnd rest with
          | some (consumed, rest') =>
            ' ' :: (List.replicate (countNl consumed) '\n' ++ stripAux fuel rest')
          | none => '/' :: stripAux fuel ('*' :: rest)) := rfl
    rw [hshow, hsome]
    conv_rhs => rw [findBlockEnd_append rest l r hsome]
    unfold countNl at *
    simp only [List.count_cons, List.count_append, List.count_replicate, ih]
    simp
  | case5 fuel rest hnone ih =>
    have hshow : stripAux (fuel + 1) ('/' :: '*' :: rest)
        = (match findBlockEnd rest with
          | some (consumed, rest') =>
            ' ' :: (List.replicate (countNl consumed) '\n' ++ stripAux fuel rest')
          | none => '/' :: stripAux fuel ('*' :: rest)) := rfl
    rw [hshow, hnone]
    unfold countNl at *
    simp only [List.count_cons, ih]
  | case6 fuel c rest h1 h2 hquote l r hsome ih =>
    rw [stripAux]
    · rw [if_pos hquote, hsome]
      conv_rhs => rw [matchLit_append (c :: rest) l r hsome]
      unfold countNl at *
      rw [List.count_append, List.count_append, ih]
    · exact h1
    · exact h2
  | case7 fuel c rest h1 h2 hquote hnone ih =>
    rw [stripAux]
    · rw [if_pos hquote, hnone]
      unfold countNl at *
      simp only [List.count_cons, ih]
    · exact h1
    · exact h2
  | case8 fuel c rest h1 h2 hquote ih =>
    rw [stripAux]
    · rw [if_neg hquote]
      unfold countNl at *
      simp only [List.count_cons, ih]
    · exact h1
    · exact h2

set_option maxHeartbeats 600000 in
/-- C7: `strip_comments` returns a string with exactly as many newline
characters as its input (`//` comments are replaced up to but not
including their newline, `/*...*/` comments by a space followed by the
comment's newlines), and a character/string literal at the scan position
— whatever its contents look like — is reproduced unchanged, the scan
resuming right after it. -/
theorem c7_strip_comments_newlines_and_literals :
    (∀ text : String, countNl (strip_comments text).toList = countNl text.toList) ∧
    (∀ (fuel : Nat) (cs lit rest : List Char), matchLit cs = some (lit, rest) →
      stripAux (fuel + 1) cs = lit ++ stripAux fuel rest) := by
  constructor
  · intro text
    exact stripAux_countNl text.toList.length text.toList
  · intro fuel cs lit rest h
    cases cs with
    | nil => simp [matchLit] at h
    | cons c t =>
      have hq : c = '\'' ∨ c = '"' := by
        by_contra hq
        simp only [matchLit, if_neg hq] at h
        exact absurd h (by simp)
      rw [stripAux]
      · rw [if_pos hq, h]
      · intro rest1 hc hr
        rcases hq with rfl | rfl <;> exact absurd hc (by decide)
      · intro rest1 hc hr
        rcases hq with rfl | rfl <;> exact absurd hc (by decide)

/-- Witness for `c7_strip_comments_newlines_and_literals`: a text with a
comment keeps its newline count, and the literal `'x'` is copied
verbatim. -/
theorem c7_strip_comments_witness :
    countNl (strip_comments "a/*b\nc*/d").toList = countNl "a/*b\nc*/d".toList ∧
    stripAux 3 ['\'', 'x', '\''] = ['\'', 'x', '\''] ++ stripAux 2 [] :=
  ⟨c7_strip_comments_newlines_and_literals.1 "a/*b\nc*/d",
   c7_strip_comments_newlines_and_literals.2 2 ['\'', 'x', '\''] ['\'', 'x', '\''] [] rfl⟩

/-! ### The engine invariant: frame on non-struct maps, power-of-two aligns -/

theorem isPow2_one : IsPow2 1 := ⟨0, rfl⟩

theorem isPow2_two : IsPow2 2 := ⟨1, rfl⟩

theorem isPow2_four : IsPow2 4 := ⟨2, rfl⟩

theorem isPow2_eight : IsPow2 8 := ⟨3, rfl⟩

/-- The maximum of two powers of two is a power of two. -/
theorem isPow2_max {a b : Int} (ha : IsPow2 a) (hb : IsPow2 b) : IsPow2 (max a b) := by
  obtain ⟨i, rfl⟩ := ha
  obtain ⟨j, rfl⟩ := hb
  refine ⟨max i j, ?_⟩
  rcases le_total i j with h | h
  · rw [max_eq_right h, max_eq_right (pow_le_pow_right₀ (by norm_num) h)]
  · rw [max_eq_left h, max_eq_left (pow_le_pow_right₀ (by norm_num) h)]

/-- Every primitive size is a power of two. -/
theorem isPow2_primitive_size (names : List String) : IsPow2 (primitive_size names) := by
  unfold primitive_size
  split
  · exact isPow2_eight
  · split
    · exact isPow2_four
    · split
      · exact isPow2_two
      · split
        · exact isPow2_one
        · split
          · exact isPow2_eight
          · exact isPow2_four

/-- A successful lookup is a member of the association list. -/
theorem dlookup_mem {κ α : Type} [DecidableEq κ] :
    ∀ (l : List (κ × α)) (k : κ) (v : α), dlookup l k = some v → (k, v) ∈ l := by
  intro l
  induction l with
  | nil => intro k v h; simp [dlookup] at h
  | cons p rest ih =>
    intro k v h
    obtain ⟨k', v'⟩ := p
    rw [dlookup] at h
    split at h
    · simp only [Option.some.injEq] at h
      subst h
      rename_i hk
      subst hk
      exact List.mem_cons_self _ _
    · exact List.mem_cons_of_mem _ (ih k v h)

/-- Membership after a dict insertion. -/
theorem mem_dinsert {κ α : Type} [DecidableEq κ] :
    ∀ (l : List (κ × α)) (k : κ) (v : α) (p : κ × α),
      p ∈ dinsert l k v → p ∈ l ∨ p = (k, v) := by
  intro l
  induction l with
  | nil =>
    intro k v p h
    simp [dinsert] at h
    right
    exact h
  | cons q rest ih =>
    intro k v p h
    obtain ⟨k', v'⟩ := q
    rw [dinsert] at h
    split at h
    · rcases List.mem_cons.mp h with rfl | hmem
      · right
        rename_i hk
        rw [hk]
      · left
        exact List.mem_cons_of_mem _ hmem
    · rcases List.mem_cons.mp h with rfl | hmem
      · left
        exact List.mem_cons_self _ _
      · rcases ih k v p hmem with h1 | h1
        · exact Or.inl (List.mem_cons_of_mem _ h1)
        · exact Or.inr h1

/-- `registerStruct` leaves typedefs untouched. -/
theorem registerStruct_typedefs (su : StructUnion) (s : Struct) (tm : TypeMap) :
    (registerStruct su s tm).typedefs = tm.typedefs := by
  obtain ⟨iu, nm, d, uid⟩ := su
  cases nm <;> rfl

/-- `registerStruct` leaves variable types untouched. -/
theorem registerStruct_var_types (su : StructUnion) (s : Struct) (tm : TypeMap) :
    (registerStruct su s tm).var_types = tm.var_types := by
  obtain ⟨iu, nm, d, uid⟩ := su
  cases nm <;> rfl

/-- `registerStruct` leaves functions untouched. -/
theorem registerStruct_functions (su : StructUnion) (s : Struct) (tm : TypeMap) :
    (registerStruct su s tm).functions = tm.functions := by
  obtain ⟨iu, nm, d, uid⟩ := su
  cases nm <;> rfl

/-- Registering a power-of-two-aligned layout preserves cache
well-formedness. -/
theorem registerStruct_WF (su : StructUnion) (s : Struct) (tm : TypeMap)
    (hwf : TypeMapWF tm) (hs : IsPow2 s.align) : TypeMapWF (registerStruct su s tm) := by
  obtain ⟨iu, nm, d, uid⟩ := su
  obtain ⟨h1, h2⟩ := hwf
  cases nm with
  | some n =>
    refine ⟨?_, h2⟩
    intro p hp
    rcases mem_dinsert _ _ _ _ hp with hmem | rfl
    · exact h1 p hmem
    · exact hs
  | none =>
    refine ⟨h1, ?_⟩
    intro p hp
    rcases mem_dinsert _ _ _ _ hp with hmem | rfl
    · exact h2 p hmem
    · exact hs

/-- Close an engine-invariant leaf: the branch produced the pair
`(tmA, X)` where `tmA` already satisfies the map-frame and
well-formedness transfer, and `X`'s successful payload satisfies
`ResWF`. -/
theorem inv_step {tmA tm tm' : TypeMap} {r X : Except Err PRes} (a : PArg)
    (hinner : tmA.typedefs = tm.typedefs ∧ tmA.var_types = tm.var_types ∧
      tmA.functions = tm.functions ∧ (TypeMapWF tm → TypeMapWF tmA))
    (h : ((tmA, X) : TypeMap × Except Err PRes) = (tm', r))
    (hres : ∀ res, X = .ok res → TypeMapWF tm → ResWF a res) :
    EngineConc a tm tm' r := by
  injection h with h1 h2
  subst h1
  subst h2
  exact ⟨hinner.1, hinner.2.1, hinner.2.2.1,
    fun hwf => ⟨hinner.2.2.2 hwf, fun res hres2 => hres res hres2 hwf⟩⟩

/-- The trivial frame for an unchanged typemap. -/
theorem inv_refl (tm : TypeMap) :
    tm.typedefs = tm.typedefs ∧ tm.var_types = tm.var_types ∧
      tm.functions = tm.functions ∧ (TypeMapWF tm → TypeMapWF tm) :=
  ⟨rfl, rfl, rfl, fun w => w⟩

/-- A struct found in a well-formed cache has power-of-two alignment. -/
theorem get_struct_WF (su : StructUnion) (tm : TypeMap) (s : Struct)
    (h : get_struct su tm = some s) (hwf : TypeMapWF tm) : IsPow2 s.align := by
  obtain ⟨iu, nm, d, uid⟩ := su
  cases nm with
  | some n => exact hwf.1 _ (dlookup_mem _ _ _ h)
  | none => exact hwf.2 _ (dlookup_mem _ _ _ h)
set_option maxHeartbeats 2000000 in
/-- The engine invariant: the layout engine never touches the typedef,
variable and function tables of the typemap; it keeps the struct caches
well-formed; and every alignment it produces is a power of two. -/
theorem engine_inv : ∀ (f : Nat) (a : PArg) (tm tm' : TypeMap) (r : Except Err PRes),
    engine f a tm = (tm', r) → EngineConc a tm tm' r := by
  intro f
  induction f with
  | zero =>
    intro a tm tm' r h
    rw [engine_zero] at h
    exact inv_step a (inv_refl tm) h (fun res h' _ => Except.noConfusion h')
  | succ f ih =>
    intro a tm tm' r h
    cases a with
    | member t =>
      simp only [engine] at h
      repeat' split at h
      all_goals first
        | exact inv_step _ (inv_refl tm) h (fun res h' _ => Except.noConfusion h')
        | exact inv_step _ (inv_refl tm) h
            (fun res h' _ => by
              injection h' with h3
              subst h3
              exact ⟨isPow2_four, fun s hs => Option.noConfusion hs⟩)
        | exact inv_step _ (inv_refl tm) h
            (fun res h' _ => by
              injection h' with h3
              subst h3
              exact ⟨isPow2_primitive_size _, fun s hs => Option.noConfusion hs⟩)
        | (rename_i heq
           have H := ih _ _ _ _ heq
           exact inv_step _ ⟨H.1, H.2.1, H.2.2.1, fun w => (H.2.2.2 w).1⟩ h
             (fun res h' _ => Except.noConfusion h'))
        | (rename_i heq
           have H := ih _ _ _ _ heq
           exact inv_step _ ⟨H.1, H.2.1, H.2.2.1, fun w => (H.2.2.2 w).1⟩ h
             (fun res h' w => by
               injection h' with h3
               subst h3
               exact ⟨((H.2.2.2 w).2 _ rfl).1, fun s hs => Option.noConfusion hs⟩))
        | (rename_i heq
           have H := ih _ _ _ _ heq
           exact inv_step _ ⟨H.1, H.2.1, H.2.2.1, fun w => (H.2.2.2 w).1⟩ h
             (fun res h' w => by
               injection h' with h3
               subst h3
               exact ⟨(H.2.2.2 w).2 _ rfl, fun s hs => by
                 injection hs with h4
                 subst h4
                 exact (H.2.2.2 w).2 _ rfl⟩))
    | pstruct su =>
      simp only [engine] at h
      repeat' split at h
      all_goals first
        | exact inv_step _ (inv_refl tm) h (fun res h' _ => Except.noConfusion h')
        | (rename_i heq
           exact inv_step _ (inv_refl tm) h
             (fun res h' w => by
               injection h' with h3
               subst h3
               exact get_struct_WF _ _ _ heq w))
        | (have H := ih _ _ _ _ (by assumption)
           exact inv_step _ ⟨H.1, H.2.1, H.2.2.1, fun w => (H.2.2.2 w).1⟩ h
             (fun res h' _ => Except.noConfusion h'))
        | (have H := ih _ _ _ _ (by assumption)
           exact inv_step _
             ⟨(registerStruct_typedefs _ _ _).trans H.1,
              (registerStruct_var_types _ _ _).trans H.2.1,
              (registerStruct_functions _ _ _).trans H.2.2.1,
              fun w => registerStruct_WF _ _ _ ((H.2.2.2 w).1) ((H.2.2.2 w).2 _ rfl)⟩ h
             (fun res h' w => by
               injection h' with h3
               subst h3
               exact (H.2.2.2 w).2 _ rfl))
    | pdo su =>
      simp only [engine] at h
      repeat' split at h
      all_goals first
        | exact inv_step _ (inv_refl tm) h (fun res h' _ => Except.noConfusion h')
        | (have H := ih _ _ _ _ (by assumption)
           exact inv_step _ ⟨H.1, H.2.1, H.2.2.1, fun w => (H.2.2.2 w).1⟩ h
             (fun res h' _ => Except.noConfusion h'))
        | (have H := ih _ _ _ _ (by assumption)
           exact inv_step _ ⟨H.1, H.2.1, H.2.2.1, fun w => (H.2.2.2 w).1⟩ h
             (fun res h' w => by
               injection h' with h3
               subst h3
               exact (H.2.2.2 w).2 _ rfl isPow2_one))
    | pdecls iu decls st =>
      cases decls with
      | nil =>
        simp only [engine] at h
        exact inv_step _ (inv_refl tm) h
          (fun res h' _ => by
            injection h' with h3
            subst h3
            exact fun hp => hp)
      | cons d rest =>
        simp only [engine] at h
        split at h
        case h_1 tmA stA heq =>
          have H1 := ih _ _ _ _ heq
          have H2 := ih _ _ _ _ h
          refine ⟨H2.1.trans H1.1, H2.2.1.trans H1.2.1, H2.2.2.1.trans H1.2.2.1, fun w => ?_⟩
          have hw1 := H1.2.2.2 w
          have hw2 := H2.2.2.2 hw1.1
          refine ⟨hw2.1, fun res hres => ?_⟩
          have hr2 := hw2.2 res hres
          cases res with
          | stateRes st2 => exact fun hp => hr2 (hw1.2 _ rfl hp)
          | memberRes a b c => exact trivial
          | structRes s => exact trivial
        case h_2 =>
          have H := ih _ _ _ _ (by assumption)
          exact inv_step _ ⟨H.1, H.2.1, H.2.2.1, fun w => (H.2.2.2 w).1⟩ h
            (fun res h' _ => Except.noConfusion h')
        case h_3 =>
          have H := ih _ _ _ _ (by assumption)
          exact inv_step _ ⟨H.1, H.2.1, H.2.2.1, fun w => (H.2.2.2 w).1⟩ h
            (fun res h' _ => Except.noConfusion h')
    | pstep iu d st =>
      simp only [engine] at h
      repeat' split at h
      all_goals first
        | exact inv_step _ (inv_refl tm) h (fun res h' _ => Except.noConfusion h')
        | exact inv_step _ (inv_refl tm) h
            (fun res h' _ => by
              injection h' with h3
              subst h3
              exact fun hp => hp)
        | (have H := ih _ _ _ _ (by assumption)
           exact inv_step _ ⟨H.1, H.2.1, H.2.2.1, fun w => (H.2.2.2 w).1⟩ h
             (fun res h' _ => Except.noConfusion h'))
        | (have H := ih _ _ _ _ (by assumption)
           exact inv_step _ ⟨H.1, H.2.1, H.2.2.1, fun w => (H.2.2.2 w).1⟩ h
             (fun res h' w => by
               injection h' with h3
               subst h3
               exact fun hp => hp))
        | (have H := ih _ _ _ _ (by assumption)
           exact inv_step _ ⟨H.1, H.2.1, H.2.2.1, fun w => (H.2.2.2 w).1⟩ h
             (fun res h' w => by
               injection h' with h3
               subst h3
               exact fun hp => isPow2_max hp ((H.2.2.2 w).2 _ rfl).1))
        | (have H := ih _ _ _ _ (by assumption)
           exact inv_step _ ⟨H.1, H.2.1, H.2.2.1, fun w => (H.2.2.2 w).1⟩ h
             (fun res h' w => by
               injection h' with h3
               subst h3
               exact fun hp => isPow2_max hp ((H.2.2.2 w).2 _ rfl)))

/-! ### C5: struct sizes are align-multiples; union sizes are member maxima -/

set_option maxHeartbeats 2000000 in
/-- One union-mode layout iteration updates `union_size` by folding in
exactly the contributions that `unionStepSize` collects, with both
walking the typemap identically. -/
theorem union_step_size (f : Nat) (d : DeclNode) (st : LayoutState) (tm tmA : TypeMap)
    (st' : LayoutState)
    (h : engine f (.pstep true d st) tm = (tmA, .ok (.stateRes st'))) :
    unionAgrees tmA st.union_size st'.union_size (unionStepSize f d tm) := by
  cases f with
  | zero => rw [engine_zero] at h; simp at h
  | succ f =>
    simp only [engine, not_true, eq_self_iff_true, false_and, ite_true, ite_false,
      if_true, if_false] at h
    repeat' split at h
    all_goals
      simp only [Prod.mk.injEq, Except.ok.injEq, PRes.stateRes.injEq, reduceCtorEq,
        false_and, and_false] at h
    all_goals (
      obtain ⟨rfl, rfl⟩ := h
      simp only [unionStepSize, *]
      exact ⟨rfl, by simp [List.foldl]⟩)

set_option maxHeartbeats 1000000 in
/-- A whole union-mode layout run updates `union_size` by folding in
the per-member contributions that `unionMemberSizes` collects. -/
theorem union_decls_size : ∀ (f : Nat) (ds : List DeclNode) (st : LayoutState)
    (tm tmA : TypeMap) (st' : LayoutState),
    engine f (.pdecls true ds st) tm = (tmA, .ok (.stateRes st')) →
    unionAgrees tmA st.union_size st'.union_size (unionMemberSizes f ds tm) := by
  intro f
  induction f with
  | zero => intro ds st tm tmA st' h; rw [engine_zero] at h; simp at h
  | succ f ih =>
    intro ds st tm tmA st' h
    cases ds with
    | nil =>
      simp only [engine, Prod.mk.injEq, Except.ok.injEq, PRes.stateRes.injEq] at h
      obtain ⟨rfl, rfl⟩ := h
      exact ⟨rfl, rfl⟩
    | cons d rest =>
      simp only [engine] at h
      split at h
      case h_1 =>
        rename_i tmB stB heq
        have Hs := union_step_size f d st tm tmB stB heq
        have Hr := ih rest stB tmB tmA st' h
        rcases hu : unionStepSize f d tm with ⟨tmC, rC⟩
        rw [hu] at Hs
        cases rC with
        | error e => exact absurd Hs (by simp [unionAgrees])
        | ok sizes =>
          obtain ⟨rfl, hfold⟩ := Hs
          rcases hv : unionMemberSizes f rest tmC with ⟨tmD, rD⟩
          rw [hv] at Hr
          cases rD with
          | error e => exact absurd Hr (by simp [unionAgrees])
          | ok sizes2 =>
            obtain ⟨rfl, hfold2⟩ := Hr
            show unionAgrees tmD st.union_size st'.union_size
              (unionMemberSizes (f + 1) (d :: rest) tm)
            simp only [unionMemberSizes, hu, hv]
            refine ⟨rfl, ?_⟩
            rw [List.foldl_append, ← hfold, hfold2]
      all_goals exact absurd h (by simp)

set_option maxHeartbeats 1000000 in
/-- C5: for every struct/union definition accepted by the layout engine
(over a well-formed typemap): a struct's returned size is a multiple of
its alignment (the final offset is rounded up to the alignment), and a
union's returned size is the running maximum of the member sizes that
`unionMemberSizes` collects, folded from the initial `union_size` 0 with
no tail padding to a multiple of the alignment. -/
theorem c5_struct_padding_union_max (fuel : Nat) (su : StructUnion) (ds : List DeclNode)
    (tm tmf : TypeMap) (S : Struct)
    (hwf : TypeMapWF tm) (hds : su.decls = some ds)
    (h : do_parse_struct fuel su tm = (tmf, .ok S)) :
    (su.isUnion = false → S.size % S.align = 0) ∧
    (su.isUnion = true → ∃ sizes, unionMemberSizes (fuel - 1) ds tm = (tmf, .ok sizes) ∧
      S.size = sizes.foldl max 0) := by
  cases fuel with
  | zero =>
    simp only [do_parse_struct, engine_zero] at h
    exact absurd h (by simp)
  | succ f =>
    simp only [do_parse_struct] at h
    split at h
    case h_2 => exact absurd h (by simp)
    case h_3 => exact absurd h (by simp)
    case h_1 tmB sB heq =>
      obtain ⟨rfl, rfl⟩ : tmB = tmf ∧ sB = S := by
        simpa [Prod.mk.injEq, Except.ok.injEq] using h
      cases su with
      | mk iu nm od uid =>
        simp only [StructUnion.decls] at hds
        subst hds
        simp only [engine] at heq
        split at heq
        case h_1 => exact absurd heq (by simp)
        case h_2 => exact absurd heq (by simp)
        case h_3 =>
          rename_i iu2 nm2 ds2 uid2 hne hmk
          simp only [StructUnion.mk.injEq, Option.some.injEq] at hmk
          obtain ⟨rfl, rfl, rfl, rfl⟩ := hmk
          split at heq
          case h_2 => exact absurd heq (by simp)
          case h_3 => exact absurd heq (by simp)
          case h_1 tmC st hdecls =>
            obtain ⟨rfl, hS⟩ : tmC = tmB ∧ _ = sB := by
              simpa [Prod.mk.injEq, Except.ok.injEq, PRes.structRes.injEq] using heq
            have Hinv := engine_inv f _ _ _ _ hdecls
            have hpow : IsPow2 st.align := by
              have Hres := (Hinv.2.2.2 hwf).2 (.stateRes st) rfl
              exact Hres ⟨0, rfl⟩
            subst hS
            cases iu with
            | false =>
              constructor
              · intro _
                simp only [Bool.not_false, ne_eq, true_and, Bool.false_eq_true, if_false]
                split
                · exact pyAnd_pow2_emod _ _ hpow
                · exact pyAnd_pow2_emod _ _ hpow
              · intro hcontra
                exact absurd hcontra (by simp [StructUnion.isUnion])
            | true =>
              constructor
              · intro hcontra
                exact absurd hcontra (by simp [StructUnion.isUnion])
              · intro _
                have Hu := union_decls_size f ds initLayout tm tmC st hdecls
                rcases hu : unionMemberSizes f ds tm with ⟨tmD, rD⟩
                rw [hu] at Hu
                cases rD with
                | error e => exact absurd Hu (by simp [unionAgrees])
                | ok sizes =>
                  obtain ⟨rfl, hfold⟩ := Hu
                  refine ⟨sizes, ?_, ?_⟩
                  · simpa using hu
                  · simpa using hfold

/-- Witness for C5 at `union U { int a; char b; };`: the collector
yields member sizes [4, 1] over the unchanged empty typemap, and the
returned size 4 is their running maximum (with no rounding step). -/
theorem c5_struct_padding_union_max_witness :
    (unionU.isUnion = false →
      (Struct.mk [(0, [⟨basic_type ["int"], "a"⟩, ⟨basic_type ["char"], "b"⟩])] 4 4).size %
        (Struct.mk [(0, [⟨basic_type ["int"], "a"⟩, ⟨basic_type ["char"], "b"⟩])] 4 4).align = 0) ∧
    (unionU.isUnion = true → ∃ sizes,
      unionMemberSizes 9 uDecls emptyTypeMap = (emptyTypeMap, .ok sizes) ∧
      (Struct.mk [(0, [⟨basic_type ["int"], "a"⟩, ⟨basic_type ["char"], "b"⟩])] 4 4).size =
        sizes.foldl max 0) :=
  c5_struct_padding_union_max 10 unionU uDecls emptyTypeMap emptyTypeMap
    (Struct.mk [(0, [⟨basic_type ["int"], "a"⟩, ⟨basic_type ["char"], "b"⟩])] 4 4)
    ⟨fun p hp => absurd hp (List.not_mem_nil p), fun p hp => absurd hp (List.not_mem_nil p)⟩
    rfl rfl

/-! ### C4: flattening preserves absolute offsets -/

/-- Looking up a cons cell of the ordered field table. -/
theorem fieldsAt_cons (k : Int) (fs : List StructField)
    (rest : List (Int × List StructField)) (o : Int) :
    fieldsAt ((k, fs) :: rest) o = if k = o then fs else fieldsAt rest o := by
  simp only [fieldsAt, dlookup]
  split <;> rfl

/-- `fields[offset].append(f)` appends `f` at exactly the requested
offset and leaves every other offset's list unchanged. -/
theorem fieldsAt_addField (fl : List (Int × List StructField)) (off o : Int)
    (f : StructField) :
    fieldsAt (addField fl off f) o =
      if off = o then fieldsAt fl o ++ [f] else fieldsAt fl o := by
  induction fl with
  | nil =>
    simp only [addField, fieldsAt_cons, fieldsAt, dlookup]
    split <;> simp
  | cons p rest ih =>
    obtain ⟨k, fs⟩ := p
    simp only [addField]
    by_cases hk : k = off
    · rw [if_pos hk]
      simp only [fieldsAt_cons]
      subst hk
      by_cases ho : k = o <;> simp [ho]
    · rw [if_neg hk]
      simp only [fieldsAt_cons, ih]
      by_cases ho : k = o
      · have hoff : ¬ off = o := fun e => hk (ho.trans e.symm)
        simp [ho, hoff]
      · simp [ho]

/-- Extension is reflexive. -/
theorem fieldsExt_refl (fl : List (Int × List StructField)) : FieldsExt fl fl :=
  fun _ => ⟨[], (List.append_nil _).symm⟩

/-- Extension is transitive. -/
theorem fieldsExt_trans {a b c : List (Int × List StructField)}
    (h1 : FieldsExt a b) (h2 : FieldsExt b c) : FieldsExt a c := by
  intro o
  obtain ⟨t1, e1⟩ := h1 o
  obtain ⟨t2, e2⟩ := h2 o
  exact ⟨t1 ++ t2, by rw [e2, e1, List.append_assoc]⟩

/-- Extension preserves membership at every offset. -/
theorem fieldsExt_mem {a b : List (Int × List StructField)} {f : StructField} {o : Int}
    (h : FieldsExt a b) (hm : f ∈ fieldsAt a o) : f ∈ fieldsAt b o := by
  obtain ⟨t, e⟩ := h o
  rw [e]
  exact List.mem_append_left _ hm

/-- `addField` only extends the table. -/
theorem addField_ext (fl : List (Int × List StructField)) (off : Int) (f : StructField) :
    FieldsExt fl (addField fl off f) := by
  intro o
  rw [fieldsAt_addField]
  split
  · exact ⟨[f], rfl⟩
  · exact ⟨[], (List.append_nil _).symm⟩

/-- `addFieldList` only extends the table. -/
theorem addFieldList_ext (fs : List StructField) :
    ∀ (fl : List (Int × List StructField)) (off : Int),
      FieldsExt fl (addFieldList fl off fs) := by
  induction fs with
  | nil => intro fl off; exact fieldsExt_refl fl
  | cons g gs ih =>
    intro fl off
    exact fieldsExt_trans (addField_ext fl off g) (ih (addField fl off g) off)

/-- The flattening loop only extends the table. -/
theorem addFlattened_ext (inner : List (Int × List StructField)) :
    ∀ (fl : List (Int × List StructField)) (base : Int) (pre : Option String),
      FieldsExt fl (addFlattened fl base pre inner) := by
  induction inner with
  | nil => intro fl base pre; exact fieldsExt_refl fl
  | cons p rest ih =>
    obtain ⟨off, gs⟩ := p
    intro fl base pre
    exact fieldsExt_trans (addFieldList_ext (gs.map (renameField pre)) fl (base + off))
      (ih _ base pre)

/-- Every field of the appended list lands at the requested offset. -/
theorem addFieldList_mem (fs : List StructField) :
    ∀ (fl : List (Int × List StructField)) (off : Int) (f : StructField),
      f ∈ fs → f ∈ fieldsAt (addFieldList fl off fs) off := by
  induction fs with
  | nil => intro fl off f h; exact absurd h (List.not_mem_nil f)
  | cons g gs ih =>
    intro fl off f h
    rcases List.mem_cons.1 h with h | h
    · subst h
      refine fieldsExt_mem (addFieldList_ext gs (addField fl off f) off) ?_
      rw [fieldsAt_addField, if_pos rfl]
      exact List.mem_append_right _ (List.mem_singleton.2 rfl)
    · exact ih (addField fl off g) off f h

/-- A nonempty offset cell is a `dlookup` hit. -/
theorem fieldsAt_mem_dlookup {fl : List (Int × List StructField)} {k : Int}
    {xf : StructField} (h : xf ∈ fieldsAt fl k) :
    dlookup fl k = some (fieldsAt fl k) := by
  cases hdl : dlookup fl k with
  | none =>
    exfalso
    rw [fieldsAt, hdl] at h
    exact absurd h (List.not_mem_nil xf)
  | some fs =>
    rw [fieldsAt, hdl]
    rfl

/-- The flattening loop places each inner field, renamed, at `base`
plus its inner offset. -/
theorem addFlattened_mem (inner : List (Int × List StructField)) :
    ∀ (fl : List (Int × List StructField)) (base : Int) (pre : Option String)
      (k : Int) (fs : List StructField) (xf : StructField),
      dlookup inner k = some fs → xf ∈ fs →
      renameField pre xf ∈ fieldsAt (addFlattened fl base pre inner) (base + k) := by
  induction inner with
  | nil => intro fl base pre k fs xf h _; exact Option.noConfusion h
  | cons p rest ih =>
    obtain ⟨o, gs⟩ := p
    intro fl base pre k fs xf h hm
    simp only [dlookup] at h
    by_cases ho : o = k
    · subst ho
      rw [if_pos rfl] at h
      obtain rfl : gs = fs := Option.some.inj h
      simp only [addFlattened]
      refine fieldsExt_mem (addFlattened_ext rest _ base pre) ?_
      exact addFieldList_mem (List.map (renameField pre) gs) fl (base + o)
        (renameField pre xf) (List.mem_map_of_mem _ hm)
    · rw [if_neg ho] at h
      simp only [addFlattened]
      exact ih _ base pre k fs xf h hm

set_option maxHeartbeats 2000000 in
set_option linter.unusedTactic false in
/-- One layout iteration only extends the field table: existing entries
stay at their offsets, in order. -/
theorem pstep_fields_ext (f : Nat) (iu : Bool) (d : DeclNode) (st st' : LayoutState)
    (tm tm' : TypeMap)
    (h : engine f (.pstep iu d st) tm = (tm', .ok (.stateRes st'))) :
    FieldsExt st.fields st'.fields := by
  cases f with
  | zero => rw [engine_zero] at h; simp at h
  | succ f =>
    simp only [engine] at h
    repeat' split at h
    all_goals
      simp only [Prod.mk.injEq, Except.ok.injEq, PRes.stateRes.injEq, reduceCtorEq,
        false_and, and_false] at h
    all_goals (
      obtain ⟨rfl, rfl⟩ := h
      repeat' split
      all_goals first
        | exact fieldsExt_refl _
        | exact addField_ext _ _ _
        | exact addFlattened_ext _ _ _ _
        | exact fieldsExt_trans (addField_ext _ _ _) (addFlattened_ext _ _ _ _))

/-- A whole layout run only extends the field table. -/
theorem pdecls_fields_ext : ∀ (f : Nat) (iu : Bool) (ds : List DeclNode)
    (st st' : LayoutState) (tm tm' : TypeMap),
    engine f (.pdecls iu ds st) tm = (tm', .ok (.stateRes st')) →
    FieldsExt st.fields st'.fields := by
  intro f
  induction f with
  | zero => intro iu ds st st' tm tm' h; rw [engine_zero] at h; simp at h
  | succ f ih =>
    intro iu ds st st' tm tm' h
    cases ds with
    | nil =>
      simp only [engine, Prod.mk.injEq, Except.ok.injEq, PRes.stateRes.injEq] at h
      obtain ⟨rfl, rfl⟩ := h
      exact fieldsExt_refl _
    | cons d rest =>
      simp only [engine] at h
      split at h
      case h_1 =>
        rename_i tmB stB heq
        exact fieldsExt_trans (pstep_fields_ext f iu d st stB tm tmB heq)
          (ih iu rest stB st' tmB tm' h)
      all_goals exact absurd h (by simp)

/-- Splitting a layout run at a list append: the prefix run succeeds
with the same fuel, and the suffix picks up from its final state with
the fuel the prefix consumed. -/
theorem pdecls_split : ∀ (xs : List DeclNode) (g : Nat) (iu : Bool) (ys : List DeclNode)
    (st st2 : LayoutState) (tm tm2 : TypeMap),
    engine g (.pdecls iu (xs ++ ys) st) tm = (tm2, .ok (.stateRes st2)) →
    ∃ stM tmM, engine g (.pdecls iu xs st) tm = (tmM, .ok (.stateRes stM)) ∧
      engine (g - xs.length) (.pdecls iu ys stM) tmM = (tm2, .ok (.stateRes st2)) := by
  intro xs
  induction xs with
  | nil =>
    intro g iu ys st st2 tm tm2 h
    cases g with
    | zero => rw [engine_zero] at h; simp at h
    | succ g =>
      refine ⟨st, tm, ?_, ?_⟩
      · simp [engine]
      · simpa using h
  | cons x xs ih =>
    intro g iu ys st st2 tm tm2 h
    cases g with
    | zero => rw [engine_zero] at h; simp at h
    | succ g =>
      simp only [List.cons_append, engine] at h
      split at h
      case h_1 =>
        rename_i tmB stB heq
        obtain ⟨stM, tmM, h1, h2⟩ := ih g iu ys stB st2 tmB tm2 h
        refine ⟨stM, tmM, ?_, ?_⟩
        · simp only [engine, heq]
          exact h1
        · simpa [Nat.succ_sub_succ] using h2
      all_goals exact absurd h (by simp)

set_option maxHeartbeats 2000000 in
/-- C4: flattening preserves absolute offsets.  When the layout engine
produces `S` for a struct/union whose declaration list contains a named
member `m` of aggregate type `ty` (no bitfield), where the declarations
before `m` lay out to state `st1` and `ty` parses to size `ssize`,
alignment `salign` and inner layout `sub`, then with
`offm = (st1-after-flush.offset + salign - 1) & -salign` the member's
own entry `(ty, m)` sits in `S.fields` at `offm`, and every inner field
of `sub` at inner offset `k` appears in `S.fields` at `offm + k` under
the name `m + "." + name`, with its inner type. -/
theorem c4_flattening_offsets (F : Nat) (su : StructUnion) (pre post : List DeclNode)
    (m : String) (ty : CType) (tm tmf tm1 tm2 : TypeMap) (S sub : Struct)
    (st1 : LayoutState) (ssize salign : Int) (G : Nat)
    (hds : su.decls = some (pre ++ .Decl (some m) (.ctype ty) none :: post))
    (hdo : do_parse_struct (F + 1) su tm = (tmf, .ok S))
    (hpre : layoutDecls F su.isUnion pre initLayout tm = (tm1, .ok st1))
    (hG : F - pre.length = G + 2)
    (hmem : parse_struct_member G ty tm1 = (tm2, .ok (ssize, salign, some sub))) :
    (⟨ty, m⟩ : StructField) ∈ fieldsAt S.fields
      (pyAnd ((flushBits su.isUnion st1).offset + salign - 1) (-salign)) ∧
    ∀ k xf, xf ∈ fieldsAt sub.fields k →
      (⟨xf.type', m ++ "." ++ xf.name⟩ : StructField) ∈ fieldsAt S.fields
        (pyAnd ((flushBits su.isUnion st1).offset + salign - 1) (-salign) + k) := by
  simp only [do_parse_struct] at hdo
  split at hdo
  case h_2 => exact absurd hdo (by simp)
  case h_3 => exact absurd hdo (by simp)
  case h_1 tmB sB heq =>
    obtain ⟨rfl, rfl⟩ : tmB = tmf ∧ sB = S := by
      simpa [Prod.mk.injEq, Except.ok.injEq] using hdo
    cases su with
    | mk iu nm od uid =>
      simp only [StructUnion.decls] at hds
      subst hds
      simp only [StructUnion.isUnion] at hpre ⊢
      simp only [engine] at heq
      split at heq
      case h_1 => exact absurd heq (by simp)
      case h_2 => exact absurd heq (by simp)
      case h_3 =>
        rename_i iu2 nm2 ds2 uid2 hne hmk
        simp only [StructUnion.mk.injEq, Option.some.injEq] at hmk
        obtain ⟨rfl, rfl, rfl, rfl⟩ := hmk
        split at heq
        case h_2 => exact absurd heq (by simp)
        case h_3 => exact absurd heq (by simp)
        case h_1 tmC st hdecls =>
          obtain ⟨rfl, hS⟩ : tmC = tmB ∧ _ = sB := by
            simpa [Prod.mk.injEq, Except.ok.injEq, PRes.structRes.injEq] using heq
          have hSfields : sB.fields = st.fields := by
            rw [← hS]
            split <;> rfl
          simp only [layoutDecls] at hpre
          split at hpre
          case h_2 => exact absurd hpre (by simp)
          case h_3 => exact absurd hpre (by simp)
          case h_1 tmD stD hpreE =>
            obtain ⟨rfl, rfl⟩ : tm1 = tmD ∧ st1 = stD := by
              have := hpre.symm
              simpa [Prod.mk.injEq, Except.ok.injEq, PRes.stateRes.injEq] using this
            simp only [parse_struct_member] at hmem
            split at hmem
            case h_2 => exact absurd hmem (by simp)
            case h_3 => exact absurd hmem (by simp)
            case h_1 tmE szE alE subE hmemE =>
              obtain ⟨rfl, rfl, rfl, rfl⟩ :
                  tm2 = tmE ∧ ssize = szE ∧ salign = alE ∧ subE = some sub := by
                have := hmem.symm
                simpa [Prod.mk.injEq, Except.ok.injEq, eq_comm] using this
              obtain ⟨stM, tmM, h1, h2⟩ :=
                pdecls_split pre F iu (.Decl (some m) (.ctype ty) none :: post)
                  initLayout st tm tmC hdecls
              rw [hpreE] at h1
              obtain ⟨rfl, rfl⟩ : tm1 = tmM ∧ st1 = stM := by
                simpa [Prod.mk.injEq, Except.ok.injEq, PRes.stateRes.injEq] using h1
              rw [hG] at h2
              have h2' : engine (G + 1 + 1)
                  (.pdecls iu (.Decl (some m) (.ctype ty) none :: post) st1) tm1 =
                  (tmC, .ok (.stateRes st)) := h2
              simp only [engine] at h2'
              split at h2'
              case h_2 => exact absurd h2' (by simp)
              case h_3 => exact absurd h2' (by simp)
              case h_1 =>
                rename_i tmG stG hstep
                simp only [engine, hmemE] at hstep
                simp only [flushBits]
                split at hstep
                all_goals (
                  simp only [Prod.mk.injEq, Except.ok.injEq, PRes.stateRes.injEq] at hstep
                  obtain ⟨rfl, rfl⟩ := hstep
                  have hext := pdecls_fields_ext (G + 1) iu post _ st tm2 tmC h2'
                  constructor
                  · rw [hSfields]
                    refine fieldsExt_mem hext ?_
                    refine fieldsExt_mem (addFlattened_ext _ _ _ _) ?_
                    rw [fieldsAt_addField]
                    repeat' split
                    all_goals first
                      | exact List.mem_append_right _ (List.mem_singleton.2 rfl)
                      | exact absurd rfl (by assumption)
                  · intro k xf hxf
                    rw [hSfields]
                    refine fieldsExt_mem hext ?_
                    have hdl := fieldsAt_mem_dlookup hxf
                    exact addFlattened_mem sub.fields _ _ (some m) k _ xf hdl hxf)

/-- Witness for C4 at `struct Outer { struct Inner { int a; char b; } x;
short t; };`: the member `x` lands at offset 0, and the inner leaves
reappear as `x.a` at 0 + 0 and `x.b` at 0 + 4, with their inner types. -/
theorem c4_flattening_offsets_witness :
    (⟨innerTy, "x"⟩ : StructField) ∈ fieldsAt outerS.fields 0 ∧
    ∀ k xf, xf ∈ fieldsAt innerS.fields k →
      (⟨xf.type', "x" ++ "." ++ xf.name⟩ : StructField) ∈ fieldsAt outerS.fields (0 + k) :=
  c4_flattening_offsets 10 outerSU []
    [.Decl (some "t") (.ctype (basic_type ["short"])) none]
    "x" innerTy emptyTypeMap tmInner emptyTypeMap tmInner outerS innerS
    initLayout 8 4 8 rfl rfl rfl rfl rfl

/-! ### C10: named top-level declarations land in var_types -/

/-- Python dict assignment: looking up the assigned key hits the new
value. -/
theorem dlookup_dinsert {κ α : Type} [DecidableEq κ] :
    ∀ (l : List (κ × α)) (k2 : κ) (v : α) (k : κ),
      dlookup (dinsert l k2 v) k = if k2 = k then some v else dlookup l k := by
  intro l
  induction l with
  | nil =>
    intro k2 v k
    simp only [dinsert, dlookup]
  | cons p rest ih =>
    obtain ⟨a, b⟩ := p
    intro k2 v k
    simp only [dinsert]
    by_cases ha : a = k2
    · subst ha
      rw [if_pos rfl]
      simp only [dlookup]
      by_cases hk : a = k
      · subst hk; simp
      · simp [hk]
    · rw [if_neg ha]
      simp only [dlookup, ih]
      by_cases hk : a = k
      · subst hk
        have : ¬ k2 = a := fun e => ha e.symm
        simp [this]
      · simp [hk]

/-- Python dict assignment never removes other keys. -/
theorem dlookup_dinsert_isSome {κ α : Type} [DecidableEq κ]
    (l : List (κ × α)) (k2 k : κ) (v : α)
    (h : (dlookup l k).isSome = true) : (dlookup (dinsert l k2 v) k).isSome = true := by
  rw [dlookup_dinsert]
  split
  · rfl
  · exact h

set_option maxHeartbeats 2000000 in
/-- The `Visitor` traversal never touches `functions` and never loses a
`var_types` entry (it only adds or overwrites entries). -/
theorem visitor_mono (efuel : Nat) : ∀ (vfuel : Nat) (arg : VArg) (tm tm' : TypeMap)
    (r : Except Err Unit), visitor efuel vfuel arg tm = (tm', r) →
    tm'.functions = tm.functions ∧
    ∀ n, (dlookup tm.var_types n).isSome = true →
      (dlookup tm'.var_types n).isSome = true := by
  intro vfuel
  induction vfuel with
  | zero =>
    intro arg tm tm' r h
    simp only [visitor, Prod.mk.injEq] at h
    obtain ⟨rfl, rfl⟩ := h
    exact ⟨rfl, fun n hn => hn⟩
  | succ f ih =>
    intro arg tm tm' r h
    cases arg with
    | vmember mt =>
      cases mt with
      | ctype t => simp only [visitor] at h; exact ih _ _ _ _ h
      | anonSU su => simp only [visitor] at h; exact ih _ _ _ _ h
    | vtype t =>
      cases t with
      | TypeDecl dn inner => simp only [visitor] at h; exact ih _ _ _ _ h
      | PtrDecl inner => simp only [visitor] at h; exact ih _ _ _ _ h
      | ArrayDecl inner dim => simp only [visitor] at h; exact ih _ _ _ _ h
      | FuncDecl args ret =>
        simp only [visitor] at h
        split at h
        case h_1 =>
          rename_i tmM u heq
          have H1 := ih _ _ _ _ heq
          have H2 := ih _ _ _ _ h
          exact ⟨H2.1.trans H1.1, fun n hn => H2.2 n (H1.2 n hn)⟩
        case h_2 =>
          rename_i tmM e heq
          have H1 := ih _ _ _ _ heq
          simp only [Prod.mk.injEq] at h
          obtain ⟨rfl, rfl⟩ := h
          exact H1
    | vinner i =>
      cases i with
      | IdentifierType names =>
        simp only [visitor, Prod.mk.injEq] at h
        obtain ⟨rfl, rfl⟩ := h
        exact ⟨rfl, fun n hn => hn⟩
      | Enum name =>
        cases name with
        | some nm =>
          simp only [visitor, Prod.mk.injEq] at h
          obtain ⟨rfl, rfl⟩ := h
          exact ⟨rfl, fun n hn => hn⟩
        | none =>
          simp only [visitor, Prod.mk.injEq] at h
          obtain ⟨rfl, rfl⟩ := h
          exact ⟨rfl, fun n hn => hn⟩
      | StructU su =>
        cases su with
        | mk iu nm od uid =>
          cases od with
          | none =>
            simp only [visitor, Prod.mk.injEq] at h
            obtain ⟨rfl, rfl⟩ := h
            exact ⟨rfl, fun n hn => hn⟩
          | some ds =>
            simp only [visitor] at h
            split at h
            case h_1 =>
              rename_i tmE pr heq
              simp only [Prod.mk.injEq] at h
              obtain ⟨rfl, rfl⟩ := h
              have H := engine_inv efuel _ _ _ _ heq
              exact ⟨H.2.2.1, fun n hn => by rw [H.2.1]; exact hn⟩
            case h_2 =>
              rename_i tmE e heq
              simp only [Prod.mk.injEq] at h
              obtain ⟨rfl, rfl⟩ := h
              have H := engine_inv efuel _ _ _ _ heq
              exact ⟨H.2.2.1, fun n hn => by rw [H.2.1]; exact hn⟩
    | vparams ps =>
      cases ps with
      | nil =>
        simp only [visitor, Prod.mk.injEq] at h
        obtain ⟨rfl, rfl⟩ := h
        exact ⟨rfl, fun n hn => hn⟩
      | cons p rest =>
        cases p with
        | EllipsisParam => simp only [visitor] at h; exact ih _ _ _ _ h
        | IDParam nm => simp only [visitor] at h; exact ih _ _ _ _ h
        | Typename t =>
          simp only [visitor] at h
          split at h
          case h_1 =>
            rename_i tmM u heq
            have H1 := ih _ _ _ _ heq
            have H2 := ih _ _ _ _ h
            exact ⟨H2.1.trans H1.1, fun n hn => H2.2 n (H1.2 n hn)⟩
          case h_2 =>
            rename_i tmM e heq
            have H1 := ih _ _ _ _ heq
            simp only [Prod.mk.injEq] at h
            obtain ⟨rfl, rfl⟩ := h
            exact H1
        | DeclParam dn t =>
          cases dn with
          | none =>
            simp only [visitor] at h
            split at h
            case h_1 => exact ih _ _ _ _ h
            case h_2 =>
              split at h
              case h_1 =>
                rename_i tmM u heq
                have H1 := ih _ _ _ _ heq
                have H2 := ih _ _ _ _ h
                exact ⟨H2.1.trans H1.1, fun n hn => H2.2 n (H1.2 n hn)⟩
              case h_2 =>
                rename_i tmM e heq
                have H1 := ih _ _ _ _ heq
                simp only [Prod.mk.injEq] at h
                obtain ⟨rfl, rfl⟩ := h
                exact H1
          | some nn =>
            simp only [visitor] at h
            split at h
            case h_1 =>
              have H := ih _ _ _ _ h
              exact ⟨H.1, fun n hn => H.2 n (dlookup_dinsert_isSome _ _ _ _ hn)⟩
            case h_2 =>
              split at h
              case h_1 =>
                rename_i tmM u heq
                have H1 := ih _ _ _ _ heq
                have H2 := ih _ _ _ _ h
                exact ⟨H2.1.trans H1.1,
                  fun n hn => H2.2 n (H1.2 n (dlookup_dinsert_isSome _ _ _ _ hn))⟩
              case h_2 =>
                rename_i tmM e heq
                have H1 := ih _ _ _ _ heq
                simp only [Prod.mk.injEq] at h
                obtain ⟨rfl, rfl⟩ := h
                exact ⟨H1.1, fun n hn => H1.2 n (dlookup_dinsert_isSome _ _ _ _ hn)⟩

/-- One item of the second pass never touches `functions` and never
loses a `var_types` entry. -/
theorem buildPhase2Item_mono (efuel vfuel : Nat) (item : ExtDecl) (tm tm1 : TypeMap)
    (r : Except Err Unit) (h : buildPhase2Item efuel vfuel item tm = (tm1, r)) :
    tm1.functions = tm.functions ∧
    ∀ n, (dlookup tm.var_types n).isSome = true →
      (dlookup tm1.var_types n).isSome = true := by
  cases item with
  | Typedef nm t =>
    simp only [buildPhase2Item] at h
    exact visitor_mono efuel vfuel (.vtype t) tm tm1 r h
  | FuncDef dn dt =>
    cases dn with
    | none =>
      simp only [buildPhase2Item, Prod.mk.injEq] at h
      obtain ⟨rfl, rfl⟩ := h
      exact ⟨rfl, fun n hn => hn⟩
    | some nn =>
      simp only [buildPhase2Item, Prod.mk.injEq] at h
      obtain ⟨rfl, rfl⟩ := h
      exact ⟨rfl, fun n hn => dlookup_dinsert_isSome _ _ _ _ hn⟩
  | OtherExt =>
    simp only [buildPhase2Item, Prod.mk.injEq] at h
    obtain ⟨rfl, rfl⟩ := h
    exact ⟨rfl, fun n hn => hn⟩
  | DeclExt dn mt =>
    cases dn with
    | none =>
      simp only [buildPhase2Item] at h
      split at h
      case h_1 =>
        simp only [Prod.mk.injEq] at h
        obtain ⟨rfl, rfl⟩ := h
        exact ⟨rfl, fun n hn => hn⟩
      case h_2 =>
        exact visitor_mono efuel vfuel (.vmember mt) tm tm1 r h
    | some nn =>
      simp only [buildPhase2Item] at h
      split at h
      case h_1 =>
        simp only [Prod.mk.injEq] at h
        obtain ⟨rfl, rfl⟩ := h
        exact ⟨rfl, fun n hn => dlookup_dinsert_isSome _ _ _ _ hn⟩
      case h_2 =>
        have H := visitor_mono efuel vfuel (.vmember mt) _ tm1 r h
        exact ⟨H.1, fun n hn => H.2 n (dlookup_dinsert_isSome _ _ _ _ hn)⟩

/-- The second pass never touches `functions` and never loses a
`var_types` entry. -/
theorem buildPhase2_mono (efuel vfuel : Nat) : ∀ (ast : List ExtDecl) (tm tm1 : TypeMap)
    (r : Except Err Unit), buildPhase2 efuel vfuel ast tm = (tm1, r) →
    tm1.functions = tm.functions ∧
    ∀ n, (dlookup tm.var_types n).isSome = true →
      (dlookup tm1.var_types n).isSome = true := by
  intro ast
  induction ast with
  | nil =>
    intro tm tm1 r h
    simp only [buildPhase2, Prod.mk.injEq] at h
    obtain ⟨rfl, rfl⟩ := h
    exact ⟨rfl, fun n hn => hn⟩
  | cons item rest ih =>
    intro tm tm1 r h
    simp only [buildPhase2] at h
    split at h
    case h_1 =>
      rename_i tmM u heq
      have H1 := buildPhase2Item_mono efuel vfuel item tm tmM _ heq
      have H2 := ih _ _ _ h
      exact ⟨H2.1.trans H1.1, fun n hn => H2.2 n (H1.2 n hn)⟩
    case h_2 =>
      rename_i tmM e heq
      have H1 := buildPhase2Item_mono efuel vfuel item tm tmM _ heq
      simp only [Prod.mk.injEq] at h
      obtain ⟨rfl, rfl⟩ := h
      exact H1

/-- A named `FuncDef` or top-level `Decl` item gets a `var_types` entry
when the second pass processes it. -/
theorem buildPhase2Item_registers (efuel vfuel : Nat) (n : String) (item : ExtDecl)
    (tm tm1 : TypeMap) (u : Unit)
    (h : buildPhase2Item efuel vfuel item tm = (tm1, .ok u))
    (hitem : (∃ dt, item = .FuncDef (some n) dt) ∨ (∃ mt, item = .DeclExt (some n) mt)) :
    (dlookup tm1.var_types n).isSome = true := by
  rcases hitem with ⟨dt, rfl⟩ | ⟨mt, rfl⟩
  · simp only [buildPhase2Item, Prod.mk.injEq] at h
    obtain ⟨rfl, -⟩ := h
    rw [dlookup_dinsert, if_pos rfl]
    rfl
  · simp only [buildPhase2Item] at h
    split at h
    case h_1 =>
      simp only [Prod.mk.injEq] at h
      obtain ⟨rfl, -⟩ := h
      rw [dlookup_dinsert, if_pos rfl]
      rfl
    case h_2 =>
      have H := visitor_mono efuel vfuel (.vmember mt) _ tm1 _ h
      refine H.2 n ?_
      rw [dlookup_dinsert, if_pos rfl]
      rfl

/-- Every named `FuncDef` or top-level `Decl` of the unit has a
`var_types` entry after the second pass. -/
theorem buildPhase2_registers (efuel vfuel : Nat) (n : String) : ∀ (ast : List ExtDecl)
    (tm tm1 : TypeMap) (u : Unit),
    buildPhase2 efuel vfuel ast tm = (tm1, .ok u) →
    ((∃ dt, ExtDecl.FuncDef (some n) dt ∈ ast) ∨
     (∃ mt, ExtDecl.DeclExt (some n) mt ∈ ast)) →
    (dlookup tm1.var_types n).isSome = true := by
  intro ast
  induction ast with
  | nil =>
    intro tm tm1 u _ hmem
    rcases hmem with ⟨dt, hm⟩ | ⟨mt, hm⟩ <;> exact absurd hm (List.not_mem_nil _)
  | cons item rest ih =>
    intro tm tm1 u h hmem
    simp only [buildPhase2] at h
    split at h
    case h_2 => exact absurd h (by simp)
    case h_1 =>
      rename_i tmM u0 heq
      have hcases : ((∃ dt, item = ExtDecl.FuncDef (some n) dt) ∨
          (∃ mt, item = ExtDecl.DeclExt (some n) mt)) ∨
          ((∃ dt, ExtDecl.FuncDef (some n) dt ∈ rest) ∨
           (∃ mt, ExtDecl.DeclExt (some n) mt ∈ rest)) := by
        rcases hmem with ⟨dt, hm⟩ | ⟨mt, hm⟩
        · rcases List.mem_cons.1 hm with hm | hm
          · exact .inl (.inl ⟨dt, hm.symm⟩)
          · exact .inr (.inl ⟨dt, hm⟩)
        · rcases List.mem_cons.1 hm with hm | hm
          · exact .inl (.inr ⟨mt, hm.symm⟩)
          · exact .inr (.inr ⟨mt, hm⟩)
      rcases hcases with hhead | hrest
      · have hreg := buildPhase2Item_registers efuel vfuel n item tm tmM u0 heq hhead
        exact (buildPhase2_mono efuel vfuel rest tmM tm1 _ h).2 n hreg
      · exact ih tmM tm1 u h hrest

/-- The first pass only adds `functions` entries. -/
theorem buildPhase1_mono : ∀ (ast : List ExtDecl) (tm tm1 : TypeMap),
    buildPhase1 ast tm = .ok tm1 →
    ∀ n, (dlookup tm.functions n).isSome = true →
      (dlookup tm1.functions n).isSome = true := by
  intro ast
  induction ast with
  | nil =>
    intro tm tm1 h n hn
    simp only [buildPhase1, Except.ok.injEq] at h
    subst h
    exact hn
  | cons item rest ih =>
    intro tm tm1 h n hn
    cases item with
    | Typedef nm t =>
      simp only [buildPhase1] at h
      exact ih _ _ h n hn
    | OtherExt =>
      simp only [buildPhase1] at h
      exact ih _ _ h n hn
    | FuncDef dn dt =>
      cases dn with
      | none =>
        simp only [buildPhase1] at h
        exact absurd h (by simp)
      | some nn =>
        simp only [buildPhase1] at h
        split at h
        case h_2 => exact absurd h (by simp)
        case h_1 =>
          split at h
          case h_2 => exact absurd h (by simp)
          case h_1 =>
            exact ih _ _ h n (dlookup_dinsert_isSome _ _ _ _ hn)
    | DeclExt dn mt =>
      match mt, h with
      | .ctype (.FuncDecl args ret), h => ?_
      | .ctype (.TypeDecl a b), h => ?_
      | .ctype (.PtrDecl a), h => ?_
      | .ctype (.ArrayDecl a b), h => ?_
      | .anonSU su, h => ?_
      case _ =>
        simp only [buildPhase1] at h
        split at h
        case h_1 => exact absurd h (by simp)
        case h_2 =>
          split at h
          case h_2 => exact absurd h (by simp)
          case h_1 =>
            exact ih _ _ h n (dlookup_dinsert_isSome _ _ _ _ hn)
      all_goals (
        simp only [buildPhase1] at h
        exact ih _ _ h n hn)

/-- A successful first pass on a cons factors through the tail. -/
theorem buildPhase1_cons (item : ExtDecl) (rest : List ExtDecl) (tm tm1 : TypeMap)
    (h : buildPhase1 (item :: rest) tm = .ok tm1) :
    ∃ tm2, buildPhase1 rest tm2 = .ok tm1 := by
  cases item with
  | Typedef nm t => exact ⟨_, h⟩
  | OtherExt => exact ⟨_, h⟩
  | FuncDef dn dt =>
    cases dn with
    | none =>
      simp only [buildPhase1] at h
      exact absurd h (by simp)
    | some nn =>
      simp only [buildPhase1] at h
      split at h
      case h_2 => exact absurd h (by simp)
      case h_1 =>
        split at h
        case h_2 => exact absurd h (by simp)
        case h_1 => exact ⟨_, h⟩
  | DeclExt dn mt =>
    match mt, h with
    | .ctype (.FuncDecl args ret), h => ?_
    | .ctype (.TypeDecl a b), h => ?_
    | .ctype (.PtrDecl a), h => ?_
    | .ctype (.ArrayDecl a b), h => ?_
    | .anonSU su, h => ?_
    case _ =>
      simp only [buildPhase1] at h
      split at h
      case h_1 => exact absurd h (by simp)
      case h_2 =>
        split at h
        case h_2 => exact absurd h (by simp)
        case h_1 => exact ⟨_, h⟩
    all_goals exact ⟨_, h⟩

/-- Every named function definition or function-typed top-level
declaration of the unit has a `functions` entry after the first pass. -/
theorem buildPhase1_registers (n : String) : ∀ (ast : List ExtDecl) (tm tm1 : TypeMap),
    buildPhase1 ast tm = .ok tm1 →
    ((∃ args ret, ExtDecl.FuncDef (some n) (.FuncDecl args ret) ∈ ast) ∨
     (∃ args ret, ExtDecl.DeclExt (some n) (.ctype (.FuncDecl args ret)) ∈ ast)) →
    (dlookup tm1.functions n).isSome = true := by
  intro ast
  induction ast with
  | nil =>
    intro tm tm1 _ hmem
    rcases hmem with ⟨a, r, hm⟩ | ⟨a, r, hm⟩ <;> exact absurd hm (List.not_mem_nil _)
  | cons item rest ih =>
    intro tm tm1 h hmem
    have hsplit : ((∃ args ret, item = ExtDecl.FuncDef (some n) (.FuncDecl args ret)) ∨
        (∃ args ret, item = ExtDecl.DeclExt (some n) (.ctype (.FuncDecl args ret)))) ∨
        ((∃ args ret, ExtDecl.FuncDef (some n) (.FuncDecl args ret) ∈ rest) ∨
         (∃ args ret, ExtDecl.DeclExt (some n) (.ctype (.FuncDecl args ret)) ∈ rest)) := by
      rcases hmem with ⟨a, r, hm⟩ | ⟨a, r, hm⟩
      · rcases List.mem_cons.1 hm with hm | hm
        · exact .inl (.inl ⟨a, r, hm.symm⟩)
        · exact .inr (.inl ⟨a, r, hm⟩)
      · rcases List.mem_cons.1 hm with hm | hm
        · exact .inl (.inr ⟨a, r, hm.symm⟩)
        · exact .inr (.inr ⟨a, r, hm⟩)
    rcases hsplit with (⟨a, r, rfl⟩ | ⟨a, r, rfl⟩) | hrest
    · simp only [buildPhase1] at h
      split at h
      case h_2 => exact absurd h (by simp)
      case h_1 =>
        rename_i fn hfn
        refine buildPhase1_mono rest _ tm1 h n ?_
        rw [dlookup_dinsert, if_pos rfl]
        rfl
    · simp only [buildPhase1] at h
      split at h
      case h_2 => exact absurd h (by simp)
      case h_1 =>
        rename_i fn hfn
        refine buildPhase1_mono rest _ tm1 h n ?_
        rw [dlookup_dinsert, if_pos rfl]
        rfl
    · obtain ⟨tm2, h2⟩ := buildPhase1_cons item rest tm tm1 h
      exact ih tm2 tm1 h2 hrest


set_option maxHeartbeats 2000000 in
/-- The `Visitor` leaves the `var_types` entry of any name that does not
occur as a parameter name in the visited region exactly as it was. -/
theorem visitor_value (efuel : Nat) : ∀ (vfuel : Nat) (arg : VArg) (tm tm' : TypeMap)
    (r : Except Err Unit) (n : String), visitor efuel vfuel arg tm = (tm', r) →
    n ∉ vargParamNames arg →
    dlookup tm'.var_types n = dlookup tm.var_types n := by
  intro vfuel
  induction vfuel with
  | zero =>
    intro arg tm tm' r n h _
    simp only [visitor, Prod.mk.injEq] at h
    obtain ⟨rfl, rfl⟩ := h
    rfl
  | succ f ih =>
    intro arg tm tm' r n h hn
    cases arg with
    | vmember mt =>
      cases mt with
      | ctype t => simp only [visitor] at h; exact ih _ _ _ _ _ h hn
      | anonSU su => simp only [visitor] at h; exact ih _ _ _ _ _ h (List.not_mem_nil n)
    | vtype t =>
      cases t with
      | TypeDecl dn inner =>
        simp only [visitor] at h
        exact ih _ _ _ _ _ h (List.not_mem_nil n)
      | PtrDecl inner => simp only [visitor] at h; exact ih _ _ _ _ _ h hn
      | ArrayDecl inner dim => simp only [visitor] at h; exact ih _ _ _ _ _ h hn
      | FuncDecl args ret =>
        cases args with
        | none =>
          simp only [visitor] at h
          split at h
          case h_1 =>
            rename_i tmM u heq
            have H1 := ih _ _ _ _ _ heq (List.not_mem_nil n)
            have H2 := ih _ _ _ _ _ h hn
            exact H2.trans H1
          case h_2 =>
            rename_i tmM e heq
            have H1 := ih _ _ _ _ _ heq (List.not_mem_nil n)
            simp only [Prod.mk.injEq] at h
            obtain ⟨rfl, rfl⟩ := h
            exact H1
        | some ps =>
          simp only [vargParamNames, ctypeParamNames, List.mem_append, not_or] at hn
          simp only [visitor] at h
          split at h
          case h_1 =>
            rename_i tmM u heq
            have H1 := ih _ _ _ _ _ heq hn.1
            have H2 := ih _ _ _ _ _ h hn.2
            exact H2.trans H1
          case h_2 =>
            rename_i tmM e heq
            have H1 := ih _ _ _ _ _ heq hn.1
            simp only [Prod.mk.injEq] at h
            obtain ⟨rfl, rfl⟩ := h
            exact H1
    | vinner i =>
      cases i with
      | IdentifierType names =>
        simp only [visitor, Prod.mk.injEq] at h
        obtain ⟨rfl, rfl⟩ := h
        rfl
      | Enum name =>
        cases name with
        | some nm =>
          simp only [visitor, Prod.mk.injEq] at h
          obtain ⟨rfl, rfl⟩ := h
          rfl
        | none =>
          simp only [visitor, Prod.mk.injEq] at h
          obtain ⟨rfl, rfl⟩ := h
          rfl
      | StructU su =>
        cases su with
        | mk iu nm od uid =>
          cases od with
          | none =>
            simp only [visitor, Prod.mk.injEq] at h
            obtain ⟨rfl, rfl⟩ := h
            rfl
          | some ds =>
            simp only [visitor] at h
            split at h
            case h_1 =>
              rename_i tmE pr heq
              simp only [Prod.mk.injEq] at h
              obtain ⟨rfl, rfl⟩ := h
              have H := engine_inv efuel _ _ _ _ heq
              rw [H.2.1]
            case h_2 =>
              rename_i tmE e heq
              simp only [Prod.mk.injEq] at h
              obtain ⟨rfl, rfl⟩ := h
              have H := engine_inv efuel _ _ _ _ heq
              rw [H.2.1]
    | vparams ps =>
      cases ps with
      | nil =>
        simp only [visitor, Prod.mk.injEq] at h
        obtain ⟨rfl, rfl⟩ := h
        rfl
      | cons p rest =>
        cases p with
        | EllipsisParam => simp only [visitor] at h; exact ih _ _ _ _ _ h hn
        | IDParam nm => simp only [visitor] at h; exact ih _ _ _ _ _ h hn
        | Typename t =>
          simp only [vargParamNames, paramNodesNames, List.mem_append, not_or] at hn
          simp only [visitor] at h
          split at h
          case h_1 =>
            rename_i tmM u heq
            have H1 := ih _ _ _ _ _ heq hn.1
            have H2 := ih _ _ _ _ _ h hn.2
            exact H2.trans H1
          case h_2 =>
            rename_i tmM e heq
            have H1 := ih _ _ _ _ _ heq hn.1
            simp only [Prod.mk.injEq] at h
            obtain ⟨rfl, rfl⟩ := h
            exact H1
        | DeclParam dn t =>
          cases dn with
          | none =>
            simp only [vargParamNames, paramNodesNames, List.mem_append, not_or] at hn
            simp only [visitor] at h
            split at h
            case h_1 => exact ih _ _ _ _ _ h hn.2
            case h_2 =>
              split at h
              case h_1 =>
                rename_i tmM u heq
                have H1 := ih _ _ _ _ _ heq hn.1
                have H2 := ih _ _ _ _ _ h hn.2
                exact H2.trans H1
              case h_2 =>
                rename_i tmM e heq
                have H1 := ih _ _ _ _ _ heq hn.1
                simp only [Prod.mk.injEq] at h
                obtain ⟨rfl, rfl⟩ := h
                exact H1
          | some nm =>
            simp only [vargParamNames, paramNodesNames, List.mem_cons,
              List.mem_append, not_or] at hn
            have hins : dlookup (dinsert tm.var_types nm (.ctype t)) n =
                dlookup tm.var_types n := by
              rw [dlookup_dinsert, if_neg (fun e => hn.1 e.symm)]
            simp only [visitor] at h
            split at h
            case h_1 =>
              have H := ih _ _ _ _ _ h hn.2.2
              exact H.trans hins
            case h_2 =>
              split at h
              case h_1 =>
                rename_i tmM u heq
                have H1 := ih _ _ _ _ _ heq hn.2.1
                have H2 := ih _ _ _ _ _ h hn.2.2
                exact H2.trans (H1.trans hins)
              case h_2 =>
                rename_i tmM e heq
                have H1 := ih _ _ _ _ _ heq hn.2.1
                simp only [Prod.mk.injEq] at h
                obtain ⟨rfl, rfl⟩ := h
                exact H1.trans hins

/-- Processing one top-level item leaves the `var_types` entry of any
name the item cannot write unchanged. -/
theorem buildPhase2Item_value (efuel vfuel : Nat) (item : ExtDecl) (tm tm1 : TypeMap)
    (r : Except Err Unit) (n : String)
    (h : buildPhase2Item efuel vfuel item tm = (tm1, r))
    (hn : n ∉ extDeclWrites item) :
    dlookup tm1.var_types n = dlookup tm.var_types n := by
  cases item with
  | Typedef nm t =>
    simp only [buildPhase2Item] at h
    exact visitor_value efuel vfuel (.vtype t) tm tm1 r n h hn
  | OtherExt =>
    simp only [buildPhase2Item, Prod.mk.injEq] at h
    obtain ⟨rfl, rfl⟩ := h
    rfl
  | FuncDef dn dt =>
    cases dn with
    | none =>
      simp only [buildPhase2Item, Prod.mk.injEq] at h
      obtain ⟨rfl, rfl⟩ := h
      rfl
    | some nm =>
      simp only [extDeclWrites, List.mem_singleton] at hn
      simp only [buildPhase2Item, Prod.mk.injEq] at h
      obtain ⟨rfl, rfl⟩ := h
      rw [dlookup_dinsert, if_neg (fun e => hn e.symm)]
  | DeclExt dn mt =>
    cases dn with
    | none =>
      simp only [extDeclWrites] at hn
      simp only [buildPhase2Item] at h
      split at h
      case h_1 =>
        simp only [Prod.mk.injEq] at h
        obtain ⟨rfl, rfl⟩ := h
        rfl
      case h_2 =>
        exact visitor_value efuel vfuel (.vmember mt) tm tm1 r n h hn
    | some nm =>
      simp only [extDeclWrites, List.mem_cons, not_or] at hn
      have hins : dlookup (dinsert tm.var_types nm mt) n =
          dlookup tm.var_types n := by
        rw [dlookup_dinsert, if_neg (fun e => hn.1 e.symm)]
      simp only [buildPhase2Item] at h
      split at h
      case h_1 =>
        simp only [Prod.mk.injEq] at h
        obtain ⟨rfl, rfl⟩ := h
        exact hins
      case h_2 =>
        have H := visitor_value efuel vfuel (.vmember mt) _ tm1 r n h hn.2
        exact H.trans hins

/-- The second pass leaves the `var_types` entry of any name that no
remaining item can write unchanged. -/
theorem buildPhase2_value (efuel vfuel : Nat) (n : String) : ∀ (ast : List ExtDecl)
    (tm tm1 : TypeMap) (r : Except Err Unit),
    buildPhase2 efuel vfuel ast tm = (tm1, r) →
    (∀ it, it ∈ ast → n ∉ extDeclWrites it) →
    dlookup tm1.var_types n = dlookup tm.var_types n := by
  intro ast
  induction ast with
  | nil =>
    intro tm tm1 r h _
    simp only [buildPhase2, Prod.mk.injEq] at h
    obtain ⟨rfl, rfl⟩ := h
    rfl
  | cons item rest ih =>
    intro tm tm1 r h hall
    simp only [buildPhase2] at h
    split at h
    case h_1 =>
      rename_i tmM u heq
      have H1 := buildPhase2Item_value efuel vfuel item tm tmM _ n heq
        (hall item (List.mem_cons_self _ _))
      have H2 := ih _ _ _ h (fun it hit => hall it (List.mem_cons_of_mem _ hit))
      exact H2.trans H1
    case h_2 =>
      rename_i tmM e heq
      have H1 := buildPhase2Item_value efuel vfuel item tm tmM _ n heq
        (hall item (List.mem_cons_self _ _))
      simp only [Prod.mk.injEq] at h
      obtain ⟨rfl, rfl⟩ := h
      exact H1

/-- A successful second pass over an append factors through the middle
typemap. -/
theorem buildPhase2_split (efuel vfuel : Nat) : ∀ (xs ys : List ExtDecl)
    (tm tmf : TypeMap) (u : Unit),
    buildPhase2 efuel vfuel (xs ++ ys) tm = (tmf, .ok u) →
    ∃ tmM uM, buildPhase2 efuel vfuel xs tm = (tmM, .ok uM) ∧
      buildPhase2 efuel vfuel ys tmM = (tmf, .ok u) := by
  intro xs
  induction xs with
  | nil =>
    intro ys tm tmf u h
    exact ⟨tm, (), rfl, h⟩
  | cons item rest ih =>
    intro ys tm tmf u h
    simp only [List.cons_append, buildPhase2] at h
    split at h
    case h_1 =>
      rename_i tmB u0 heq
      obtain ⟨tmM, uM, h1, h2⟩ := ih ys tmB tmf u h
      refine ⟨tmM, uM, ?_, h2⟩
      simp only [buildPhase2, heq]
      exact h1
    case h_2 => exact absurd h (by simp)

/-- Processing the top-level item that declares `n` (a function
definition, a function prototype, or a plain declaration whose type
contains no parameter named `n`) sets `var_types[n]` to the declared
type. -/
theorem buildPhase2Item_sets (efuel vfuel : Nat) (item : ExtDecl) (tm tm1 : TypeMap)
    (u : Unit) (n : String) (mt : MemberType)
    (h : buildPhase2Item efuel vfuel item tm = (tm1, .ok u))
    (hitem : (∃ dt, item = .FuncDef (some n) dt ∧ mt = .ctype dt) ∨
             (∃ args ret, item = .DeclExt (some n) mt ∧ mt = .ctype (.FuncDecl args ret)) ∨
             (item = .DeclExt (some n) mt ∧ n ∉ memberTypeParamNames mt)) :
    dlookup tm1.var_types n = some mt := by
  rcases hitem with ⟨dt, rfl, rfl⟩ | ⟨args, ret, rfl, rfl⟩ | ⟨rfl, hmt⟩
  · simp only [buildPhase2Item, Prod.mk.injEq] at h
    obtain ⟨rfl, -⟩ := h
    rw [dlookup_dinsert, if_pos rfl]
  · simp only [buildPhase2Item, Prod.mk.injEq] at h
    obtain ⟨rfl, -⟩ := h
    rw [dlookup_dinsert, if_pos rfl]
  · simp only [buildPhase2Item] at h
    split at h
    case h_1 =>
      simp only [Prod.mk.injEq] at h
      obtain ⟨rfl, -⟩ := h
      rw [dlookup_dinsert, if_pos rfl]
    case h_2 =>
      have H := visitor_value efuel vfuel (.vmember mt) _ tm1 _ n h hmt
      rw [H, dlookup_dinsert, if_pos rfl]

/-- C10 (amended): when `build_typemap` succeeds, every named top-level
declaration — function definitions and plain declarations alike,
prototypes included — has a `var_types` entry under its name; and the
entry holds exactly the declared type whenever nothing later overwrites
it: the declaring item's own type contains no parameter named `n` (the
`Visitor` registers function parameters in `var_types` too; function
definitions and prototype-shaped declarations are not descended into),
and no later item declares `n` or visits a parameter named `n`.  A name
declared as a function moreover appears in `functions` (first pass). -/
theorem c10_var_types_decl_registration (efuel vfuel : Nat) (ast : List ExtDecl)
    (tm : TypeMap) (hb : build_typemap efuel vfuel ast = .ok tm) :
    (∀ n, ((∃ dt, ExtDecl.FuncDef (some n) dt ∈ ast) ∨
           (∃ mt, ExtDecl.DeclExt (some n) mt ∈ ast)) →
      (dlookup tm.var_types n).isSome = true) ∧
    (∀ n (mt : MemberType) (pre post : List ExtDecl) (item : ExtDecl),
      ast = pre ++ item :: post →
      ((∃ dt, item = ExtDecl.FuncDef (some n) dt ∧ mt = .ctype dt) ∨
       (∃ args ret, item = ExtDecl.DeclExt (some n) mt ∧
          mt = .ctype (.FuncDecl args ret)) ∨
       (item = ExtDecl.DeclExt (some n) mt ∧ n ∉ memberTypeParamNames mt)) →
      (∀ it, it ∈ post → n ∉ extDeclWrites it) →
      dlookup tm.var_types n = some mt ∧
      (∀ args ret, mt = .ctype (.FuncDecl args ret) →
        (dlookup tm.functions n).isSome = true)) := by
  simp only [build_typemap] at hb
  split at hb
  case h_1 => exact absurd hb (by simp)
  case h_2 =>
    rename_i tm1 hp1
    split at hb
    case h_2 => exact absurd hb (by simp)
    case h_1 =>
      rename_i tm2 u hp2
      obtain rfl : tm = tm2 := by
        have := hb.symm
        simpa using this
      have hmono := buildPhase2_mono efuel vfuel ast tm1 tm _ hp2
      constructor
      · intro n hmem
        exact buildPhase2_registers efuel vfuel n ast tm1 tm u hp2 hmem
      · intro n mt pre post item hast hitem hpost
        subst hast
        obtain ⟨tmA, uA, hA, hrest⟩ := buildPhase2_split efuel vfuel pre _ tm1 tm u hp2
        simp only [buildPhase2] at hrest
        constructor
        · split at hrest
          case h_2 => exact absurd hrest (by simp)
          case h_1 =>
            rename_i tmB u0 heq
            have hset := buildPhase2Item_sets efuel vfuel item tmA tmB u0 n mt heq hitem
            have hval := buildPhase2_value efuel vfuel n post tmB tm _ hrest hpost
            rw [hval, hset]
        · intro args ret hfn
          have hfun : (dlookup tm1.functions n).isSome = true := by
            refine buildPhase1_registers n _ emptyTypeMap tm1 hp1 ?_
            rcases hitem with ⟨dt, hif, hmt⟩ | ⟨a2, r2, hif, hmt⟩ | ⟨hif, -⟩
            · refine .inl ⟨args, ret, ?_⟩
              rw [hif]
              subst hmt
              obtain rfl : dt = CType.FuncDecl args ret := by
                injection hfn
              exact List.mem_append_right _ (List.mem_cons_self _ _)
            · refine .inr ⟨args, ret, ?_⟩
              rw [hif, ← hfn]
              exact List.mem_append_right _ (List.mem_cons_self _ _)
            · refine .inr ⟨args, ret, ?_⟩
              rw [hif, ← hfn]
              exact List.mem_append_right _ (List.mem_cons_self _ _)
          rw [hmono.1]
          exact hfun

/-- Witness for the amended C10 on `astW` (a function definition `f`,
then a prototype `g` and a variable `v`, none of which writes `f`): the
entry for `f` holds exactly its declared type, and `f` is in
`functions`. -/
theorem c10_var_types_decl_registration_witness :
    dlookup tmW.var_types "f" =
      some (.ctype (.FuncDecl none (basic_type ["void"]))) ∧
    (dlookup tmW.functions "f").isSome = true :=
  have H := (c10_var_types_decl_registration 5 5 astW tmW rfl).2 "f"
    (.ctype (.FuncDecl none (basic_type ["void"]))) []
    [ .DeclExt (some "g") (.ctype (.FuncDecl none (basic_type ["int"])))
    , .DeclExt (some "v") (.ctype (basic_type ["int"])) ]
    (.FuncDef (some "f") (.FuncDecl none (basic_type ["void"]))) rfl
    (.inl ⟨.FuncDecl none (basic_type ["void"]), rfl, rfl⟩)
    (by decide)
  ⟨H.1, H.2 none (basic_type ["void"]) rfl⟩

/-- Counterexample to C10 as stated: `var_types` does not always map a
declared name to its declared type.  In `int x; void (*fp)(char x);`
the `Visitor` also registers the function parameter `x` of `fp`'s type
(`visit_Decl` fires on parameter declarations), overwriting the
top-level entry, so `var_types["x"]` ends up as `char`, not `int`. -/
theorem c10_var_types_value_counterexample :
    ¬ (∀ (efuel vfuel : Nat) (ast : List ExtDecl) (tm : TypeMap) (n : String)
        (mt : MemberType), build_typemap efuel vfuel ast = .ok tm →
        ExtDecl.DeclExt (some n) mt ∈ ast →
        dlookup tm.var_types n = some mt) := by
  intro H
  have h := H 10 10 astX tmX "x" (.ctype (basic_type ["int"])) rfl
    (List.mem_cons_self _ _)
  have h2 : some (MemberType.ctype (basic_type ["char"])) =
      some (MemberType.ctype (basic_type ["int"])) := h
  simp [basic_type] at h2
